import Mathlib

/-!
Verification of the voxmlx streaming speech-to-text core against its
natural-language specification.

The development shallowly embeds the parts of the repository the claims
are about:

* `src/voxmlx/cache.py` — the `RotatingKVCache` class.  The Python object
  keeps two tensor buffers `keys` and `values` whose time axis (axis 2) is
  manipulated by identical index arithmetic on every operation; the model
  therefore tracks a single buffer `kv : Option (List α)` of per-position
  entries, where an entry may be instantiated by a key–value pair
  (e.g. `α := K × V`).  `none` models `self.keys is None`.  Tensor slicing
  along axis 2 becomes `List.take`/`List.drop`; `mx.zeros` blocks become
  `List.replicate _ 0`; in-place slice assignment at the cursor becomes a
  take/splice/drop decomposition.
* `src/voxmlx/audio.py` — `pad_audio`, and the framing layer of
  `log_mel_spectrogram` / `log_mel_spectrogram_step`.  Both code paths
  apply the exact same per-frame computation (Hann window, real DFT,
  power spectrum, mel filter bank, log compression) to each hop-aligned
  window of samples, so frames are represented by their raw 400-sample
  windows; two different windows yield different frames.
* `src/voxmlx/stream.py` — the orchestrator loop of `stream_transcribe`,
  modelled at the level of element counts (sample, frame and embedding
  counts), which is all the lookahead invariant speaks about.
* `src/voxmlx/generate.py` and the `decode_steps` closure of
  `stream.py` — the autoregressive token loops, with the opaque
  model+sampler abstracted as the stream of sampled token ids.
* `src/stt_port_worker.py` / `src/tts_port_worker.py` — `recv_packet`
  and the read loop's continue/stop decision, over a byte-list model of
  the stdin stream (`read n` returns up to `n` bytes; fewer only at
  channel end, exactly the Python blocking semantics).
-/

set_option maxRecDepth 100000

namespace Voxmlx

/-! ## RotatingKVCache (src/voxmlx/cache.py) -/

/-- State of a `RotatingKVCache`: `kv` is the keys/values buffer along the
time axis (`none` ↔ `self.keys is None`), `offset` is `self._offset`,
`maxSize` is `self.max_size` and `idx` is `self._idx`. -/
structure KVCache (α : Type) where
  kv : Option (List α)
  offset : Nat
  maxSize : Nat
  idx : Nat
  deriving Repr, DecidableEq

/-- The class attribute `step = 256` of `RotatingKVCache`: the block size
used to grow the buffer during in-place updates. -/
def cacheStep : Nat := 256

/-- `RotatingKVCache.__init__(max_size)`. -/
def freshCache (α : Type) (maxSize : Nat) : KVCache α :=
  { kv := none, offset := 0, maxSize := maxSize, idx := 0 }

/-- `RotatingKVCache._trim(trim_size, v, append)`: drop `trim_size`
entries from the front when positive, then concatenate `append`. -/
def trimBuf {α : Type} (trimSize : Int) (v : List α) (app : Option (List α)) :
    List α :=
  (if 0 < trimSize then v.drop trimSize.toNat else v) ++ app.getD []

/-- `RotatingKVCache._temporal_order(v)`: re-linearize the circular buffer
into chronological order (`idx` and `offset` are the fields of `self`). -/
def temporalOrderBuf {α : Type} (idx offset : Nat) (v : List α) : List α :=
  if idx = v.length then v
  else if idx < offset then v.drop idx ++ v.take idx
  else v.take idx

/-- The value returned by `_update_in_place`:
`keys[..., : offset, :]` while `offset < max_size`, the whole buffer
otherwise. -/
def fetchOf {α : Type} (s : KVCache α) : List α :=
  if s.offset < s.maxSize then (s.kv.getD []).take s.offset else s.kv.getD []

/-- `RotatingKVCache._update_concat(keys, values)`: re-linearize, trim
`_idx - max_size + 1` from the front when positive, then append the new
entries; returns the new state and the fetched buffer. -/
def updateConcat {α : Type} (s : KVCache α) (ks : List α) :
    KVCache α × List α :=
  match s.kv with
  | none =>
      ({ s with kv := some ks, offset := s.offset + ks.length,
                idx := ks.length }, ks)
  | some buf =>
      let buf1 := temporalOrderBuf s.idx s.offset buf
      let idx1 := buf1.length
      let trimSize : Int := (idx1 : Int) - s.maxSize + 1
      let buf2 := trimBuf trimSize buf1 (some ks)
      ({ s with kv := some buf2, offset := s.offset + ks.length,
                idx := buf2.length }, buf2)

/-- `RotatingKVCache._update_in_place(keys, values)`: grow the buffer by a
zero block of size `min(step, max_size - offset)` when exhausted, trim any
excess over `max_size`, wrap the cursor, write the incoming entries at the
cursor, and fetch. -/
def updateInPlace {α : Type} [Zero α] (s : KVCache α) (ks : List α) :
    KVCache α × List α :=
  let S := ks.length
  let prev := s.offset
  let s1 :=
    if s.kv.isNone ∨ (prev ≥ (s.kv.getD []).length ∧
        (s.kv.getD []).length < s.maxSize) then
      let newSize := min cacheStep (s.maxSize - prev)
      { s with kv := some ((s.kv.getD []) ++ List.replicate newSize (0 : α)),
               idx := prev }
    else s
  let len1 := (s1.kv.getD []).length
  let s2 :=
    if s1.maxSize < len1 then
      { s1 with kv := some (trimBuf ((len1 : Int) - s1.maxSize)
                              (s1.kv.getD []) none),
                idx := s1.maxSize }
    else s1
  let s3 := if s2.idx = s2.maxSize then { s2 with idx := 0 } else s2
  let buf := s3.kv.getD []
  let buf2 := buf.take s3.idx ++ ks ++ buf.drop (s3.idx + S)
  let s4 := { s3 with kv := some buf2, offset := s3.offset + S,
                      idx := s3.idx + S }
  (s4, fetchOf s4)

/-- `RotatingKVCache.update_and_fetch(keys, values)`: dispatch on whether
the incoming update carries exactly one position. -/
def updateAndFetch {α : Type} [Zero α] (s : KVCache α) (ks : List α) :
    KVCache α × List α :=
  if ks.length = 1 then updateInPlace s ks else updateConcat s ks

/-- Feed a list of positions one at a time through `update_and_fetch`. -/
def applyEach {α : Type} [Zero α] (s : KVCache α) (xs : List α) : KVCache α :=
  xs.foldl (fun s x => (updateAndFetch s [x]).1) s

/-- Feed a list of (bulk or single) updates through `update_and_fetch`. -/
def applyMany {α : Type} [Zero α] (s : KVCache α) (us : List (List α)) :
    KVCache α :=
  us.foldl (fun s u => (updateAndFetch s u).1) s

/-- The fetched pair of `_update_in_place` is `fetchOf` of the new state. -/
theorem updateInPlace_snd {α : Type} [Zero α] (s : KVCache α) (ks : List α) :
    (updateInPlace s ks).2 = fetchOf (updateInPlace s ks).1 := rfl

/-- Physical buffer length while `n` single-position updates have been fed
to a fresh cache of capacity `c` and `n ≤ c`: the buffer grows in zero
blocks of `cacheStep`, clipped to the capacity. -/
def lenA (c n : Nat) : Nat :=
  min c (cacheStep * ((n + cacheStep - 1) / cacheStep))

/-- State invariant after feeding the single-position updates `xs`
(nonempty) into a fresh cache of capacity `c ≥ 1`.  Below capacity the
buffer is the fed prefix padded with zeros and the cursor sits at its end;
above capacity the buffer has length `c` and rotating it at the cursor
yields the last `c` fed positions in chronological order. -/
def SinglesInv {α : Type} [Zero α] (c : Nat) (xs : List α) (s : KVCache α) :
    Prop :=
  s.maxSize = c ∧ s.offset = xs.length ∧
    (if xs.length ≤ c then
      s.idx = xs.length ∧
        s.kv = some (xs ++ List.replicate (lenA c xs.length - xs.length) 0)
    else
      ∃ B : List α, s.kv = some B ∧ B.length = c ∧ 1 ≤ s.idx ∧ s.idx ≤ c ∧
        B.drop s.idx ++ B.take s.idx = xs.drop (xs.length - c))

theorem lenA_le (c n : Nat) : lenA c n ≤ c := by
  unfold lenA cacheStep; omega

theorem le_lenA (c n : Nat) (h : n ≤ c) : n ≤ lenA c n := by
  unfold lenA cacheStep; omega

theorem updateInPlace_fresh {α : Type} [Zero α] (c : Nat) (hc : 1 ≤ c)
    (x : α) :
    (updateInPlace (freshCache α c) [x]).1 =
      { kv := some ([x] ++ List.replicate (min cacheStep (c - 0) - (0 + 1)) (0 : α)),
        offset := 0 + 1, maxSize := c, idx := 0 + 1 } := by
  have h1 : ¬ c < (List.replicate (min cacheStep (c - 0)) (0 : α)).length := by
    simp only [List.length_replicate]; omega
  have h2 : ¬ (0 = c) := by omega
  simp only [updateInPlace, freshCache, Option.isNone_none, Option.getD_none,
    Option.getD_some, List.nil_append, true_or, if_true, h1, if_false,
    List.length_singleton, h2, List.take_zero, List.drop_replicate]

theorem updateInPlace_grow {α : Type} [Zero α] (c n i : Nat) (B : List α)
    (x : α) (hle : B.length ≤ n) (hlt : B.length < c) (hnc : n < c) :
    (updateInPlace { kv := some B, offset := n, maxSize := c, idx := i }
        [x]).1 =
      { kv := some ((B ++ List.replicate (min cacheStep (c - n)) (0 : α)).take n
          ++ [x]
          ++ (B ++ List.replicate (min cacheStep (c - n)) (0 : α)).drop (n + 1)),
        offset := n + 1, maxSize := c, idx := n + 1 } := by
  have hcond : (n ≥ B.length ∧ B.length < c) := ⟨hle, hlt⟩
  have h1 : ¬ c < (B ++ List.replicate (min cacheStep (c - n)) (0 : α)).length := by
    simp [List.length_append, List.length_replicate]; omega
  have h2 : ¬ (n = c) := by omega
  simp only [updateInPlace, Option.isNone_some, Bool.false_eq_true, false_or,
    Option.getD_some, ge_iff_le, hcond, and_self, if_true, h1, if_false, h2,
    List.length_singleton]

theorem updateInPlace_write {α : Type} [Zero α] (c n i : Nat) (B : List α)
    (x : α) (hcond : ¬ (n ≥ B.length ∧ B.length < c))
    (hBc : B.length ≤ c) (hi : i ≠ c) :
    (updateInPlace { kv := some B, offset := n, maxSize := c, idx := i }
        [x]).1 =
      { kv := some (B.take i ++ [x] ++ B.drop (i + 1)),
        offset := n + 1, maxSize := c, idx := i + 1 } := by
  have h1 : ¬ c < B.length := by omega
  simp only [updateInPlace, Option.isNone_some, Bool.false_eq_true, false_or,
    Option.getD_some, ge_iff_le, hcond, if_false, h1, hi, List.length_singleton]

theorem updateInPlace_wrap {α : Type} [Zero α] (c n i : Nat) (B : List α)
    (x : α) (hcond : ¬ (n ≥ B.length ∧ B.length < c))
    (hBc : B.length ≤ c) (hi : i = c) :
    (updateInPlace { kv := some B, offset := n, maxSize := c, idx := i }
        [x]).1 =
      { kv := some ([x] ++ B.drop 1),
        offset := n + 1, maxSize := c, idx := 1 } := by
  rw [hi]
  have h1 : ¬ c < B.length := by omega
  simp only [updateInPlace, Option.isNone_some, Bool.false_eq_true, false_or,
    Option.getD_some, ge_iff_le, hcond, if_false, h1, if_pos rfl, if_true,
    List.length_singleton, List.take_zero, List.nil_append, Nat.zero_add]

/-- Feeding the first single-position update establishes the invariant. -/
theorem singlesInv_one {α : Type} [Zero α] (c : Nat) (hc : 1 ≤ c) (x : α) :
    SinglesInv c [x] (updateAndFetch (freshCache α c) [x]).1 := by
  have hd : (updateAndFetch (freshCache α c) [x]).1
      = (updateInPlace (freshCache α c) [x]).1 := by
    simp [updateAndFetch]
  rw [hd, updateInPlace_fresh c hc x]
  refine ⟨rfl, rfl, ?_⟩
  rw [if_pos (by simpa using hc)]
  refine ⟨rfl, ?_⟩
  have heq : min cacheStep (c - 0) - (0 + 1) = lenA c 1 - 1 := by
    unfold lenA cacheStep; omega
  rw [heq]
  simp

/-- One more single-position update preserves the invariant. -/
theorem singlesInv_step {α : Type} [Zero α] (c : Nat) (hc : 1 ≤ c)
    (xs : List α) (x : α) (s : KVCache α) (hn : 1 ≤ xs.length)
    (h : SinglesInv c xs s) :
    SinglesInv c (xs ++ [x]) (updateAndFetch s [x]).1 := by
  obtain ⟨kv, off, mx, i⟩ := s
  obtain ⟨hmax, hoff, hrest⟩ := h
  simp only at hmax hoff hrest
  subst mx
  subst off
  have hd : (updateAndFetch (⟨kv, xs.length, c, i⟩ : KVCache α) [x]).1
      = (updateInPlace (⟨kv, xs.length, c, i⟩ : KVCache α) [x]).1 := by
    simp [updateAndFetch]
  rw [hd]
  by_cases hA : xs.length ≤ c
  · -- phase A: the buffer is the fed prefix plus zero padding
    rw [if_pos hA] at hrest
    obtain ⟨hidx, hkv⟩ := hrest
    subst hidx
    subst hkv
    have hLb : xs.length ≤ lenA c xs.length := le_lenA c xs.length hA
    have hLc : lenA c xs.length ≤ c := lenA_le c xs.length
    have hBlen : (xs ++ List.replicate (lenA c xs.length - xs.length) (0 : α)).length
        = lenA c xs.length := by
      simp only [List.length_append, List.length_replicate]; omega
    by_cases hcc : xs.length = c
    · -- phase boundary: the cursor wraps and the first slot is overwritten
      have hBxs : xs ++ List.replicate (lenA c xs.length - xs.length) (0 : α)
          = xs := by
        have h0 : lenA c xs.length - xs.length = 0 := by omega
        simp [h0]
      rw [hBxs]
      rw [updateInPlace_wrap (α := α) c xs.length xs.length xs x
        (by omega) (by omega) hcc]
      refine ⟨rfl, by simp, ?_⟩
      dsimp only
      rw [if_neg (by simp only [List.length_append, List.length_singleton]; omega)]
      refine ⟨[x] ++ xs.drop 1, rfl, ?_, by omega, by omega, ?_⟩
      · simp only [List.length_append, List.length_singleton, List.length_drop]
        omega
      · have hxd : ([x] ++ xs.drop 1).drop 1 = xs.drop 1 :=
          List.drop_left' (by simp)
        have hxt : ([x] ++ xs.drop 1).take 1 = [x] :=
          List.take_left' (by simp)
        rw [hxd, hxt]
        have h1 : (xs ++ [x]).length - c = 1 := by
          simp only [List.length_append, List.length_singleton]; omega
        rw [h1, List.drop_append_of_le_length (by omega)]
    · -- still below capacity after this update
      have hnclt : xs.length < c := by omega
      have key : (updateInPlace
            (⟨some (xs ++ List.replicate (lenA c xs.length - xs.length) (0 : α)),
              xs.length, c, xs.length⟩ : KVCache α) [x]).1 =
          { kv := some ((xs ++ [x]) ++
              List.replicate (lenA c (xs.length + 1) - (xs.length + 1)) (0 : α)),
            offset := xs.length + 1, maxSize := c, idx := xs.length + 1 } := by
        by_cases hall : lenA c xs.length ≤ xs.length
        · -- allocation of a fresh zero block happens
          have hB0 : xs ++ List.replicate (lenA c xs.length - xs.length) (0 : α)
              = xs := by
            have h0 : lenA c xs.length - xs.length = 0 := by omega
            simp [h0]
          rw [hB0]
          rw [updateInPlace_grow c xs.length xs.length xs x le_rfl (by omega)
            hnclt]
          have htk : (xs ++ List.replicate (min cacheStep (c - xs.length)) (0 : α)).take
              xs.length = xs := List.take_left' rfl
          have hdr : (xs ++ List.replicate (min cacheStep (c - xs.length)) (0 : α)).drop
              (xs.length + 1)
              = List.replicate (min cacheStep (c - xs.length) - 1) (0 : α) := by
            rw [← List.drop_drop, List.drop_left]
            exact List.drop_replicate ..
          rw [htk, hdr]
          have hrepl : min cacheStep (c - xs.length) - 1
              = lenA c (xs.length + 1) - (xs.length + 1) := by
            unfold lenA cacheStep at *; omega
          rw [hrepl]
        · -- buffer still has free zero slots, no allocation
          have hLeq : lenA c (xs.length + 1) = lenA c xs.length := by
            unfold lenA cacheStep at *; omega
          rw [updateInPlace_write c xs.length xs.length _ x (by omega)
            (by omega) (by omega)]
          have htk : (xs ++ List.replicate (lenA c xs.length - xs.length) (0 : α)).take
              xs.length = xs := List.take_left' rfl
          have hdr : (xs ++ List.replicate (lenA c xs.length - xs.length) (0 : α)).drop
              (xs.length + 1)
              = List.replicate (lenA c xs.length - xs.length - 1) (0 : α) := by
            rw [← List.drop_drop, List.drop_left]
            exact List.drop_replicate ..
          rw [htk, hdr]
          have hrepl : lenA c xs.length - xs.length - 1
              = lenA c (xs.length + 1) - (xs.length + 1) := by omega
          rw [hrepl]
      rw [key]
      refine ⟨rfl, by simp, ?_⟩
      dsimp only
      rw [if_pos (by simp only [List.length_append, List.length_singleton]; omega)]
      refine ⟨by simp, ?_⟩
      simp only [List.length_append, List.length_singleton]
  · -- phase B: the buffer has length c and the cursor rotates
    rw [if_neg hA] at hrest
    obtain ⟨B, hkv, hBl, hi1, hic, hrot⟩ := hrest
    subst hkv
    have hlast : (xs ++ [x]).length - c = (xs.length - c) + 1 := by
      simp only [List.length_append, List.length_singleton]; omega
    have hdropx : (xs ++ [x]).drop ((xs.length - c) + 1)
        = xs.drop ((xs.length - c) + 1) ++ [x] :=
      List.drop_append_of_le_length (by omega)
    by_cases hiw : i = c
    · -- cursor at the end: wrap to slot 0
      rw [updateInPlace_wrap (α := α) c xs.length i B x (by omega) (by omega)
        hiw]
      have hBrot : B = xs.drop (xs.length - c) := by
        have hd0 : B.drop i = [] := by
          rw [List.drop_eq_nil_iff]; omega
        have ht0 : B.take i = B := by
          rw [List.take_of_length_le]; omega
        rw [hd0, ht0] at hrot
        simpa using hrot
      refine ⟨rfl, by simp, ?_⟩
      dsimp only
      rw [if_neg (by simp only [List.length_append, List.length_singleton]; omega)]
      refine ⟨[x] ++ B.drop 1, rfl, ?_, by omega, by omega, ?_⟩
      · simp only [List.length_append, List.length_singleton, List.length_drop]
        omega
      · have hxd : ([x] ++ B.drop 1).drop 1 = B.drop 1 :=
          List.drop_left' (by simp)
        have hxt : ([x] ++ B.drop 1).take 1 = [x] :=
          List.take_left' (by simp)
        rw [hxd, hxt, hlast, hdropx, hBrot]
        rw [List.drop_drop]
    · -- cursor strictly inside: overwrite slot i
      rw [updateInPlace_write (α := α) c xs.length i B x (by omega) (by omega)
        hiw]
      have hilt : i < B.length := by omega
      refine ⟨rfl, by simp, ?_⟩
      dsimp only
      rw [if_neg (by simp only [List.length_append, List.length_singleton]; omega)]
      refine ⟨B.take i ++ [x] ++ B.drop (i + 1), rfl, ?_, by omega, by omega, ?_⟩
      · simp only [List.length_append, List.length_singleton, List.length_take,
          List.length_drop]
        omega
      · have hlt : (B.take i ++ [x]).length = i + 1 := by
          simp only [List.length_append, List.length_singleton, List.length_take]
          omega
        have hxd : ((B.take i ++ [x]) ++ B.drop (i + 1)).drop (i + 1)
            = B.drop (i + 1) := List.drop_left' hlt
        have hxt : ((B.take i ++ [x]) ++ B.drop (i + 1)).take (i + 1)
            = B.take i ++ [x] := List.take_left' hlt
        rw [List.append_assoc] at hxd hxt ⊢
        rw [hxd, hxt, hlast, hdropx]
        have hstep : xs.drop (xs.length - c + 1)
            = B.drop (i + 1) ++ B.take i := by
          have h2 := congrArg (List.drop 1) hrot
          rw [List.drop_append_of_le_length (by
            simp only [List.length_drop]; omega), List.drop_drop,
            List.drop_drop] at h2
          exact h2.symm
        rw [hstep, List.append_assoc]

/-- The invariant holds after any nonempty run of single-position updates. -/
theorem singlesInv_all {α : Type} [Zero α] (c : Nat) (hc : 1 ≤ c)
    (xs : List α) (hx : xs ≠ []) :
    SinglesInv c xs (applyEach (freshCache α c) xs) := by
  induction xs using List.reverseRecOn with
  | nil => exact absurd rfl hx
  | append_singleton ys y ih =>
    rcases eq_or_ne ys [] with h0 | h0
    · subst h0
      simpa [applyEach] using singlesInv_one c hc y
    · have hfold : applyEach (freshCache α c) (ys ++ [y])
          = (updateAndFetch (applyEach (freshCache α c) ys) [y]).1 := by
        simp [applyEach, List.foldl_append]
      rw [hfold]
      refine singlesInv_step c hc ys y _ ?_ (ih h0)
      cases ys with
      | nil => exact absurd rfl h0
      | cons a l => simp

/-- While at most `capacity` single updates have been fed, the fetched
buffer is exactly the fed positions in order. -/
theorem fetch_singles_le {α : Type} [Zero α] (c : Nat) (hc : 1 ≤ c)
    (xs : List α) (hx : xs ≠ []) (hn : xs.length ≤ c) :
    fetchOf (applyEach (freshCache α c) xs) = xs := by
  obtain ⟨hmax, hoff, hrest⟩ := singlesInv_all c hc xs hx
  rw [if_pos hn] at hrest
  obtain ⟨hidx, hkv⟩ := hrest
  unfold fetchOf
  rw [hkv, hoff, hmax]
  simp only [Option.getD_some]
  by_cases hlt : xs.length < c
  · rw [if_pos hlt]
    exact List.take_left' rfl
  · rw [if_neg hlt]
    have h0 : lenA c xs.length - xs.length = 0 := by
      have h1 := lenA_le c xs.length
      have h2 := le_lenA c xs.length hn
      omega
    simp [h0]

/-- The cache state after nonempty singles always exposes a buffer whose
temporal re-linearization is the last `min n c` fed positions. -/
theorem singles_temporal {α : Type} [Zero α] (c : Nat) (hc : 1 ≤ c)
    (xs : List α) (hx : xs ≠ []) :
    ∃ B : List α, (applyEach (freshCache α c) xs).kv = some B ∧
      temporalOrderBuf (applyEach (freshCache α c) xs).idx
          (applyEach (freshCache α c) xs).offset B
        = xs.drop (xs.length - min xs.length c) := by
  obtain ⟨hmax, hoff, hrest⟩ := singlesInv_all c hc xs hx
  by_cases hA : xs.length ≤ c
  · rw [if_pos hA] at hrest
    obtain ⟨hidx, hkv⟩ := hrest
    refine ⟨_, hkv, ?_⟩
    have hmin : xs.length - min xs.length c = 0 := by omega
    rw [hmin, List.drop_zero]
    unfold temporalOrderBuf
    rw [hidx, hoff]
    have hBlen : (xs ++ List.replicate (lenA c xs.length - xs.length) (0 : α)).length
        = lenA c xs.length := by
      simp only [List.length_append, List.length_replicate]
      have := le_lenA c xs.length hA
      omega
    by_cases hfull : xs.length = lenA c xs.length
    · rw [if_pos (by rw [hBlen]; omega)]
      have h0 : lenA c xs.length - xs.length = 0 := by omega
      simp [h0]
    · rw [if_neg (by rw [hBlen]; omega), if_neg (by omega)]
      exact List.take_left' rfl
  · rw [if_neg hA] at hrest
    obtain ⟨B, hkv, hBl, hi1, hic, hrot⟩ := hrest
    refine ⟨B, hkv, ?_⟩
    have hmin : xs.length - min xs.length c = xs.length - c := by omega
    rw [hmin]
    unfold temporalOrderBuf
    rw [hoff]
    by_cases hfull : (applyEach (freshCache α c) xs).idx = B.length
    · rw [if_pos hfull]
      have hd0 : B.drop (applyEach (freshCache α c) xs).idx = [] := by
        rw [List.drop_eq_nil_iff]; omega
      have ht0 : B.take (applyEach (freshCache α c) xs).idx = B := by
        rw [List.take_of_length_le]; omega
      rw [hd0, ht0] at hrot
      simpa using hrot
    · rw [if_neg hfull, if_pos (by omega)]
      exact hrot

/-- C1, counterexample to the claim as frozen: with capacity 2, after three
single-position updates the fetched buffer is `[3, 2]` — the last two
appended positions, but in rotated circular layout, not chronological
order `[2, 3]`. -/
theorem claim1_counterexample :
    fetchOf (applyEach (freshCache ℤ 2) [1, 2, 3]) = [3, 2] ∧
    fetchOf (applyEach (freshCache ℤ 2) [1, 2, 3]) ≠ [2, 3] := by
  constructor <;> decide

/-- C1 (amended): after `c + k` single-position updates (`k ≥ 1`) the
fetched buffer is the whole physical buffer; it holds exactly the last `c`
appended positions, but rotated: the cache's own `_temporal_order`
re-linearization recovers them oldest-first, and the buffer itself is the
rotation of that chronological list at the write cursor. -/
theorem claim1_wraparound {α : Type} [Zero α] (c k : Nat) (hc : 1 ≤ c)
    (hk : 1 ≤ k) (xs : List α) (hlen : xs.length = c + k) :
    ∃ B : List α,
      (applyEach (freshCache α c) xs).kv = some B ∧
      fetchOf (applyEach (freshCache α c) xs) = B ∧
      B.length = c ∧
      temporalOrderBuf (applyEach (freshCache α c) xs).idx
        (applyEach (freshCache α c) xs).offset B = xs.drop k ∧
      B = (xs.drop k).drop (c - (applyEach (freshCache α c) xs).idx) ++
          (xs.drop k).take (c - (applyEach (freshCache α c) xs).idx) := by
  have hx : xs ≠ [] := by
    intro h
    rw [h] at hlen
    simp at hlen
    omega
  obtain ⟨hmax, hoff, hrest⟩ := singlesInv_all c hc xs hx
  rw [if_neg (by omega)] at hrest
  obtain ⟨B, hkv, hBl, hi1, hic, hrot⟩ := hrest
  have hkdrop : xs.length - c = k := by omega
  rw [hkdrop] at hrot
  refine ⟨B, hkv, ?_, hBl, ?_, ?_⟩
  · unfold fetchOf
    rw [hkv, hoff, hmax, if_neg (by omega)]
    simp
  · unfold temporalOrderBuf
    rw [hoff]
    by_cases hfull : (applyEach (freshCache α c) xs).idx = B.length
    · rw [if_pos hfull]
      have hd0 : B.drop (applyEach (freshCache α c) xs).idx = [] := by
        rw [List.drop_eq_nil_iff]; omega
      have ht0 : B.take (applyEach (freshCache α c) xs).idx = B := by
        rw [List.take_of_length_le]; omega
      rw [hd0, ht0] at hrot
      simpa using hrot
    · rw [if_neg hfull, if_pos (by omega)]
      exact hrot
  · have hdl : (B.drop (applyEach (freshCache α c) xs).idx).length
        = c - (applyEach (freshCache α c) xs).idx := by
      simp only [List.length_drop]
      omega
    have h3 := congrArg (List.take (c - (applyEach (freshCache α c) xs).idx)) hrot
    rw [List.take_left' hdl] at h3
    have h4 := congrArg (List.drop (c - (applyEach (freshCache α c) xs).idx)) hrot
    rw [List.drop_left' hdl] at h4
    rw [← h3, ← h4]
    exact (List.take_append_drop _ B).symm

/-- C1 witness at capacity 2, three updates. -/
theorem claim1_witness :
    ∃ B : List ℤ,
      (applyEach (freshCache ℤ 2) [1, 2, 3]).kv = some B ∧
      fetchOf (applyEach (freshCache ℤ 2) [1, 2, 3]) = B ∧
      B.length = 2 ∧
      temporalOrderBuf (applyEach (freshCache ℤ 2) [1, 2, 3]).idx
        (applyEach (freshCache ℤ 2) [1, 2, 3]).offset B
        = [1, 2, 3].drop 1 ∧
      B = ([1, 2, 3].drop 1).drop (2 - (applyEach (freshCache ℤ 2) [1, 2, 3]).idx)
          ++ ([1, 2, 3].drop 1).take (2 - (applyEach (freshCache ℤ 2) [1, 2, 3]).idx) :=
  claim1_wraparound 2 1 (by decide) (by decide) [1, 2, 3] (by decide)

/-- C2 (confirmed): while the total number of positions stays at or below
the capacity, feeding `xs` as one `update_and_fetch` call and feeding it
one position at a time both read back exactly `xs` — the same attention
context along the valid positions. -/
theorem claim2_equivalence {α : Type} [Zero α] (c : Nat) (hc : 1 ≤ c)
    (xs : List α) (h1 : 1 ≤ xs.length) (hn : xs.length ≤ c) :
    fetchOf (applyEach (freshCache α c) xs) = xs ∧
    (updateAndFetch (freshCache α c) xs).2 = xs := by
  have hx : xs ≠ [] := by
    cases xs
    · simp at h1
    · simp
  refine ⟨fetch_singles_le c hc xs hx hn, ?_⟩
  by_cases hone : xs.length = 1
  · obtain ⟨x, rfl⟩ : ∃ x, xs = [x] := by
      cases xs with
      | nil => simp at hone
      | cons a l =>
        cases l with
        | nil => exact ⟨a, rfl⟩
        | cons b m => simp at hone
    rw [updateAndFetch, if_pos (by simp : [x].length = 1), updateInPlace_snd,
      updateInPlace_fresh c hc x]
    unfold fetchOf
    by_cases h1c : 0 + 1 < c
    · rw [if_pos (by simpa using h1c)]
      simp only [Option.getD_some]
      exact List.take_left' rfl
    · rw [if_neg (by simpa using h1c)]
      have hcone : c = 1 := by omega
      simp only [Option.getD_some, hcone]
      norm_num [cacheStep]
  · rw [updateAndFetch, if_neg hone]
    rfl

/-- C2 witness at capacity 3 with two positions. -/
theorem claim2_witness :
    fetchOf (applyEach (freshCache ℤ 3) [5, 7]) = [5, 7] ∧
    (updateAndFetch (freshCache ℤ 3) [5, 7]).2 = [5, 7] :=
  claim2_equivalence 3 (by decide) [5, 7] (by decide) (by decide)

/-- C3, counterexample to the claim as frozen: a bulk append of three
positions into a fresh capacity-2 cache stores all three positions — the
stored buffer length exceeds the capacity, because `_update_concat` never
trims based on the combined (existing plus incoming) length. -/
theorem claim3_counterexample :
    ((updateAndFetch (freshCache ℤ 2) [1, 2, 3]).1).kv = some [1, 2, 3] ∧
    ((updateAndFetch (freshCache ℤ 2) [1, 2, 3]).1).maxSize = 2 ∧
    ¬ ((((updateAndFetch (freshCache ℤ 2) [1, 2, 3]).1).kv.getD []).length ≤
        ((updateAndFetch (freshCache ℤ 2) [1, 2, 3]).1).maxSize) := by
  refine ⟨by decide, by decide, by decide⟩

/-- C3 (amended): a bulk append onto a cache previously fed single
positions first re-linearizes the buffer into temporal order, then trims
the oldest `existing − capacity + 1` positions when the existing valid
length reaches the capacity — the trim ignores the incoming length — and
appends.  The result is the chronological suffix of the full history
keeping `min existing (capacity − 1)` old positions, so its length
`keep + |ys|` is temporally ordered but can exceed the capacity. -/
theorem claim3_bulk_append {α : Type} [Zero α] (c : Nat) (hc : 1 ≤ c)
    (xs ys : List α) (hx : xs ≠ []) (hy : 2 ≤ ys.length) :
    ((updateAndFetch (applyEach (freshCache α c) xs) ys).1).kv =
        some ((xs.drop (xs.length - min (min xs.length c) (c - 1))) ++ ys) ∧
    (updateAndFetch (applyEach (freshCache α c) xs) ys).2 =
        (xs.drop (xs.length - min (min xs.length c) (c - 1))) ++ ys ∧
    ((updateAndFetch (applyEach (freshCache α c) xs) ys).1).idx =
        min (min xs.length c) (c - 1) + ys.length ∧
    ((updateAndFetch (applyEach (freshCache α c) xs) ys).1).offset =
        xs.length + ys.length ∧
    (xs.drop (xs.length - min (min xs.length c) (c - 1))) ++ ys =
        (xs ++ ys).drop (xs.length - min (min xs.length c) (c - 1)) := by
  obtain ⟨hmax, hoff, hrest⟩ := singlesInv_all c hc xs hx
  obtain ⟨B, hkv, htemp⟩ := singles_temporal c hc xs hx
  have hxlen : 1 ≤ xs.length := by
    cases xs
    · exact absurd rfl hx
    · simp
  have hcon : updateAndFetch (applyEach (freshCache α c) xs) ys
      = updateConcat (applyEach (freshCache α c) xs) ys := by
    rw [updateAndFetch, if_neg (by omega)]
  rw [hcon]
  rcases hsE : applyEach (freshCache α c) xs with ⟨kv, off, mx, i⟩
  rw [hsE] at hmax hoff hkv htemp
  simp only at hmax hoff hkv htemp
  subst hmax
  subst hoff
  subst hkv
  -- evaluate the concat branch
  have hTlen : (temporalOrderBuf i xs.length B).length
      = min xs.length mx := by
    rw [htemp]
    simp only [List.length_drop]
    omega
  set T := temporalOrderBuf i xs.length B with hTdef
  have hkeep : xs.length - min (min xs.length mx) (mx - 1)
      = (xs.length - min xs.length mx)
        + (min xs.length mx - min (min xs.length mx) (mx - 1)) := by
    omega
  have hVdrop : T.drop (T.length - min (min xs.length mx) (mx - 1))
      = xs.drop (xs.length - min (min xs.length mx) (mx - 1)) := by
    rw [htemp, List.drop_drop]
    simp only [List.length_drop]
    congr 1
    omega
  simp only [updateConcat, ← hTdef]
  have hbuf : trimBuf ((T.length : Int) - mx + 1) T (some ys)
      = xs.drop (xs.length - min (min xs.length mx) (mx - 1)) ++ ys := by
    unfold trimBuf
    by_cases htr : (0 : Int) < (T.length : Int) - mx + 1
    · rw [if_pos htr]
      simp only [Option.getD_some]
      have htoNat : ((T.length : Int) - mx + 1).toNat = T.length - mx + 1 := by
        omega
      rw [htoNat]
      have hfull : T.length = mx := by omega
      have harg : T.length - mx + 1
          = T.length - min (min xs.length mx) (mx - 1) := by omega
      rw [harg, hVdrop]
    · rw [if_neg htr]
      simp only [Option.getD_some]
      have hsmall : T.length < mx := by omega
      have harg : T.length - min (min xs.length mx) (mx - 1) = 0 := by omega
      rw [← hVdrop, harg, List.drop_zero]
  refine ⟨?_, ?_, ?_, ?_, ?_⟩
  · rw [hbuf]
  · rw [hbuf]
  · rw [hbuf]
    simp only [List.length_append, List.length_drop]
    omega
  · trivial
  · exact (List.drop_append_of_le_length (by omega)).symm

/-- C3 witness: capacity 4, six singles then a bulk append of two. -/
theorem claim3_witness :
    ((updateAndFetch (applyEach (freshCache ℤ 4) [1, 2, 3, 4, 5, 6])
        [7, 8]).1).kv =
      some ((([1, 2, 3, 4, 5, 6] : List ℤ).drop
        (([1, 2, 3, 4, 5, 6] : List ℤ).length -
          min (min ([1, 2, 3, 4, 5, 6] : List ℤ).length 4) (4 - 1))) ++ [7, 8]) ∧
    (updateAndFetch (applyEach (freshCache ℤ 4) [1, 2, 3, 4, 5, 6]) [7, 8]).2 =
      (([1, 2, 3, 4, 5, 6] : List ℤ).drop
        (([1, 2, 3, 4, 5, 6] : List ℤ).length -
          min (min ([1, 2, 3, 4, 5, 6] : List ℤ).length 4) (4 - 1))) ++ [7, 8] ∧
    ((updateAndFetch (applyEach (freshCache ℤ 4) [1, 2, 3, 4, 5, 6])
        [7, 8]).1).idx =
      min (min ([1, 2, 3, 4, 5, 6] : List ℤ).length 4) (4 - 1) +
        ([7, 8] : List ℤ).length ∧
    ((updateAndFetch (applyEach (freshCache ℤ 4) [1, 2, 3, 4, 5, 6])
        [7, 8]).1).offset =
      ([1, 2, 3, 4, 5, 6] : List ℤ).length + ([7, 8] : List ℤ).length ∧
    (([1, 2, 3, 4, 5, 6] : List ℤ).drop
        (([1, 2, 3, 4, 5, 6] : List ℤ).length -
          min (min ([1, 2, 3, 4, 5, 6] : List ℤ).length 4) (4 - 1))) ++ [7, 8] =
      (([1, 2, 3, 4, 5, 6] : List ℤ) ++ [7, 8]).drop
        (([1, 2, 3, 4, 5, 6] : List ℤ).length -
          min (min ([1, 2, 3, 4, 5, 6] : List ℤ).length 4) (4 - 1)) :=
  claim3_bulk_append 4 (by decide) [1, 2, 3, 4, 5, 6] [7, 8]
    (by decide) (by decide)

theorem updateInPlace_over {α : Type} [Zero α] (c n i : Nat) (B : List α)
    (x : α) (hover : c < B.length) :
    (updateInPlace { kv := some B, offset := n, maxSize := c, idx := i }
        [x]).1 =
      { kv := some ([x] ++ ((B.drop (B.length - c)).drop 1 ++ [])),
        offset := n + 1, maxSize := c, idx := 1 } := by
  have hcond : ¬ (n ≥ B.length ∧ B.length < c) := by omega
  have htoNat : ((B.length : Int) - c).toNat = B.length - c := by omega
  simp only [updateInPlace, Option.isNone_some, Bool.false_eq_true, false_or,
    Option.getD_some, ge_iff_le, hcond, if_false, if_pos hover, trimBuf,
    if_pos (by omega : (0 : Int) < (B.length : Int) - c), htoNat,
    Option.getD_none, List.append_nil, if_pos rfl, if_true,
    List.length_singleton, List.take_zero, List.nil_append, Nat.zero_add]

/-- Length of the result of `_trim`. -/
theorem trimBuf_length {α : Type} (t : Int) (v : List α)
    (app : Option (List α)) :
    (trimBuf t v app).length
      = (if 0 < t then v.length - t.toNat else v.length)
        + (app.getD []).length := by
  unfold trimBuf
  split <;> simp

/-- Structural well-formedness of a cache state, preserved by every
`update_and_fetch` with at least one position.  `idx` never exceeds
`offset`; a stored buffer is nonempty, at least as long as `idx`, and its
length is tied to `offset` on either side of the capacity. -/
def CacheWF {α : Type} (s : KVCache α) : Prop :=
  1 ≤ s.maxSize ∧ s.idx ≤ s.offset ∧
  (s.kv = none → s.offset = 0 ∧ s.idx = 0) ∧
  ∀ B : List α, s.kv = some B →
    s.idx ≤ B.length ∧ 1 ≤ B.length ∧
    (B.length < s.maxSize → s.offset ≤ B.length) ∧
    (s.idx < s.offset → B.length ≤ s.offset) ∧
    (s.maxSize < B.length → B.length ≤ s.offset)

theorem cacheWF_fresh {α : Type} (c : Nat) (hc : 1 ≤ c) :
    CacheWF (freshCache α c) := by
  refine ⟨hc, le_rfl, fun _ => ⟨rfl, rfl⟩, fun B hB => by simp [freshCache] at hB⟩

/-- A bulk `_update_concat` with a nonempty update preserves
well-formedness. -/
theorem cacheWF_concat {α : Type} (s : KVCache α) (ks : List α)
    (hk : 1 ≤ ks.length) (h : CacheWF s) : CacheWF (updateConcat s ks).1 := by
  obtain ⟨kv, off, mx, i⟩ := s
  obtain ⟨hmx, hio, hnone, hsome⟩ := h
  simp only at hmx hio hnone hsome
  cases kv with
  | none =>
    obtain ⟨ho0, hi0⟩ := hnone rfl
    subst ho0
    subst hi0
    refine ⟨hmx, ?_, ?_, ?_⟩
    · simp [updateConcat]
    · simp [updateConcat]
    · intro B hB
      simp only [updateConcat] at hB
      injection hB with hB
      subst hB
      simp only [updateConcat]
      refine ⟨le_rfl, hk, by omega, by omega, by omega⟩
  | some B =>
    obtain ⟨hiB, hB1, hJ3, hJ4, hJ5⟩ := hsome B rfl
    have hTle : (temporalOrderBuf i off B).length ≤ off ∧
        ((temporalOrderBuf i off B).length < mx →
          off ≤ (temporalOrderBuf i off B).length) := by
      unfold temporalOrderBuf
      by_cases h1 : i = B.length
      · rw [if_pos h1]
        constructor
        · omega
        · intro hlt
          exact hJ3 hlt
      · rw [if_neg h1]
        by_cases h2 : i < off
        · rw [if_pos h2]
          simp only [List.length_append, List.length_drop, List.length_take]
          constructor
          · have := hJ4 h2
            omega
          · intro hlt
            have := hJ3 (by omega)
            omega
        · rw [if_neg h2]
          simp only [List.length_take]
          omega
    set T := temporalOrderBuf i off B with hT
    have hLlen : ((updateConcat (⟨some B, off, mx, i⟩ : KVCache α) ks).1).kv
        = some (trimBuf ((T.length : Int) - mx + 1) T (some ks)) := rfl
    have hL := trimBuf_length ((T.length : Int) - mx + 1) T (some ks)
    simp only [Option.getD_some] at hL
    obtain ⟨hT1, hT2⟩ := hTle
    refine ⟨hmx, ?_, by simp [updateConcat], ?_⟩
    · show (trimBuf ((T.length : Int) - mx + 1) T (some ks)).length
        ≤ off + ks.length
      rw [hL]
      split <;> omega
    · intro L hLeq
      simp only [updateConcat] at hLeq
      injection hLeq with hLeq
      subst hLeq
      simp only [updateConcat]
      rw [← hT]
      by_cases htr : (0 : Int) < (T.length : Int) - mx + 1
      · have hLval : (trimBuf ((T.length : Int) - mx + 1) T (some ks)).length
            = T.length - ((T.length : Int) - mx + 1).toNat + ks.length := by
          rw [hL, if_pos htr]
        have htval : ((T.length : Int) - mx + 1).toNat = T.length - mx + 1 := by
          omega
        rw [htval] at hLval
        exact ⟨le_rfl, by omega, fun hlt => by omega, fun h2 => by omega,
          fun h3 => by omega⟩
      · have hLval : (trimBuf ((T.length : Int) - mx + 1) T (some ks)).length
            = T.length + ks.length := by
          rw [hL, if_neg htr]
        have hoffT : T.length < mx → off ≤ T.length := hT2
        exact ⟨le_rfl, by omega, fun hlt => by
            have := hoffT (by omega); omega,
          fun h2 => by omega, fun h3 => by omega⟩

/-- A single-position `_update_in_place` preserves well-formedness. -/
theorem cacheWF_inPlace {α : Type} [Zero α] (s : KVCache α) (x : α)
    (h : CacheWF s) : CacheWF (updateInPlace s [x]).1 := by
  obtain ⟨kv, off, mx, i⟩ := s
  obtain ⟨hmx, hio, hnone, hsome⟩ := h
  simp only at hmx hio hnone hsome
  cases kv with
  | none =>
    obtain ⟨ho0, hi0⟩ := hnone rfl
    subst ho0
    subst hi0
    have hfr : (⟨none, 0, mx, 0⟩ : KVCache α) = freshCache α mx := rfl
    rw [hfr, updateInPlace_fresh mx hmx x]
    refine ⟨hmx, le_rfl, by simp, ?_⟩
    intro L hL
    injection hL with hL
    subst hL
    dsimp only
    simp only [List.length_append, List.length_singleton,
      List.length_replicate]
    unfold cacheStep
    exact ⟨by omega, by omega, fun h1 => by omega, fun h2 => by omega,
      fun h3 => by omega⟩
  | some B =>
    obtain ⟨hiB, hB1, hJ3, hJ4, hJ5⟩ := hsome B rfl
    by_cases hov : mx < B.length
    · -- stored buffer longer than the capacity: trim, wrap, write slot 0
      rw [updateInPlace_over mx off i B x hov]
      have hJ5o := hJ5 hov
      refine ⟨hmx, by dsimp only; omega, by simp, ?_⟩
      intro L hL
      injection hL with hL
      subst hL
      dsimp only
      have hlen : ([x] ++ ((B.drop (B.length - mx)).drop 1 ++ [])).length
          = mx := by
        simp only [List.length_append, List.length_singleton,
          List.length_drop, List.length_nil]
        omega
      rw [hlen]
      exact ⟨by omega, by omega, fun h1 => by omega, fun h2 => by omega,
        fun h3 => by omega⟩
    · by_cases hall : off ≥ B.length ∧ B.length < mx
      · -- exhausted buffer: grow by a zero block, then write at `offset`
        have hoffB : off = B.length := by
          have := hJ3 hall.2
          omega
        rw [updateInPlace_grow mx off i B x (by omega) hall.2 (by omega)]
        refine ⟨hmx, by dsimp only; omega, by simp, ?_⟩
        intro L hL
        injection hL with hL
        subst hL
        dsimp only
        have hE : 1 ≤ min cacheStep (mx - off) := by
          unfold cacheStep
          omega
        have hlen : ((B ++ List.replicate (min cacheStep (mx - off))
              (0 : α)).take off ++ [x]
            ++ (B ++ List.replicate (min cacheStep (mx - off))
              (0 : α)).drop (off + 1)).length
            = B.length + min cacheStep (mx - off) := by
          simp only [List.length_append, List.length_singleton,
            List.length_take, List.length_drop, List.length_replicate]
          omega
        rw [hlen]
        refine ⟨by omega, by omega, fun h1 => by omega, fun h2 => by omega,
          fun h3 => by omega⟩
      · by_cases hiw : i = mx
        · -- cursor at capacity: wrap to slot 0
          rw [updateInPlace_wrap mx off i B x hall (by omega) hiw]
          have hBmx : B.length = mx := by omega
          refine ⟨hmx, by dsimp only; omega, by simp, ?_⟩
          intro L hL
          injection hL with hL
          subst hL
          dsimp only
          have hlen : ([x] ++ B.drop 1).length = mx := by
            simp only [List.length_append, List.length_singleton,
              List.length_drop]
            omega
          rw [hlen]
          exact ⟨by omega, by omega, fun h1 => by omega, fun h2 => by omega,
            fun h3 => by omega⟩
        · -- write in place at the cursor
          rw [updateInPlace_write mx off i B x hall (by omega) hiw]
          have hilt : i < B.length := by
            rcases Nat.lt_or_ge i B.length with h | h
            · exact h
            · have hBlt : B.length < mx := by omega
              have hoc : ¬ (off ≥ B.length) := fun hcon => hall ⟨hcon, hBlt⟩
              omega
          refine ⟨hmx, by dsimp only; omega, by simp, ?_⟩
          intro L hL
          injection hL with hL
          subst hL
          dsimp only
          have hlen : (B.take i ++ [x] ++ B.drop (i + 1)).length
              = B.length := by
            simp only [List.length_append, List.length_singleton,
              List.length_take, List.length_drop]
            omega
          rw [hlen]
          have hoc : B.length < mx → off < B.length := by
            intro hBlt
            have : ¬ (off ≥ B.length) := fun hcon => hall ⟨hcon, hBlt⟩
            omega
          refine ⟨by omega, by omega, fun h1 => by
              have := hoc h1
              omega,
            fun h2 => by
              have := hJ4 (by omega)
              omega,
            fun h3 => by omega⟩

/-- Any nonempty `update_and_fetch` preserves well-formedness. -/
theorem cacheWF_update {α : Type} [Zero α] (s : KVCache α) (ks : List α)
    (hk : 1 ≤ ks.length) (h : CacheWF s) :
    CacheWF (updateAndFetch s ks).1 := by
  rw [updateAndFetch]
  by_cases h1 : ks.length = 1
  · rw [if_pos h1]
    obtain ⟨x, rfl⟩ : ∃ x, ks = [x] := by
      cases ks with
      | nil => simp at h1
      | cons a l =>
        cases l with
        | nil => exact ⟨a, rfl⟩
        | cons b m => simp at h1
    exact cacheWF_inPlace _ x h
  · rw [if_neg h1]
    exact cacheWF_concat _ ks hk h

/-- Well-formedness holds after any run of nonempty updates. -/
theorem cacheWF_applyMany {α : Type} [Zero α] (us : List (List α))
    (s : KVCache α) (h : CacheWF s) (hus : ∀ u ∈ us, u ≠ []) :
    CacheWF (applyMany s us) := by
  induction us generalizing s with
  | nil => simpa [applyMany] using h
  | cons u rest ih =>
    have hu1 : 1 ≤ u.length := by
      have := hus u (by simp)
      exact List.length_pos.mpr this
    exact ih _ (cacheWF_update s u hu1 h) (fun v hv => hus v (by simp [hv]))

/-- A run of singleton updates is a run of single positions. -/
theorem applyMany_singletons {α : Type} [Zero α] (s : KVCache α)
    (us : List (List α)) (h : ∀ u ∈ us, u.length = 1) :
    applyMany s us = applyEach s us.flatten := by
  induction us generalizing s with
  | nil => rfl
  | cons u rest ih =>
    obtain ⟨x, rfl⟩ : ∃ x, u = [x] := by
      have h1 := h u (by simp)
      cases u with
      | nil => simp at h1
      | cons a l =>
        cases l with
        | nil => exact ⟨a, rfl⟩
        | cons b m => simp at h1
    have hrest : ∀ v ∈ rest, v.length = 1 := fun v hv => h v (by simp [hv])
    calc applyMany s ([x] :: rest)
        = applyMany ((updateAndFetch s [x]).1) rest := rfl
      _ = applyEach ((updateAndFetch s [x]).1) rest.flatten := ih _ hrest
      _ = applyEach s (([x] :: rest).flatten) := by
          simp [applyEach, List.foldl_append]

/-- After nonempty singles the cursor never exceeds the capacity. -/
theorem singles_idx_le {α : Type} [Zero α] (c : Nat) (hc : 1 ≤ c)
    (xs : List α) (hx : xs ≠ []) :
    (applyEach (freshCache α c) xs).idx ≤ c := by
  obtain ⟨hmax, hoff, hrest⟩ := singlesInv_all c hc xs hx
  by_cases hA : xs.length ≤ c
  · rw [if_pos hA] at hrest
    obtain ⟨hidx, _⟩ := hrest
    omega
  · rw [if_neg hA] at hrest
    obtain ⟨B, _, _, _, hic, _⟩ := hrest
    exact hic

/-- C4, counterexample to the claim as frozen: a single bulk
`update_and_fetch` of three positions into a fresh capacity-2 cache leaves
the write cursor at 3, beyond the capacity. -/
theorem claim4_counterexample :
    (applyMany (freshCache ℤ 2) [[1, 2, 3]]).idx = 3 ∧
    ¬ ((applyMany (freshCache ℤ 2) [[1, 2, 3]]).idx ≤ 2) := by
  constructor <;> decide

/-- C4 (amended): over any sequence of nonempty `update_and_fetch` calls
from a fresh cache, `0 ≤ idx ≤ offset` always holds, and `idx ≤ capacity`
holds whenever every update in the run is single-position; a bulk update
may push `idx` beyond the capacity. -/
theorem claim4_invariant {α : Type} [Zero α] (c : Nat) (hc : 1 ≤ c)
    (us : List (List α)) (hus : ∀ u ∈ us, u ≠ []) :
    0 ≤ (applyMany (freshCache α c) us).idx ∧
    (applyMany (freshCache α c) us).idx
      ≤ (applyMany (freshCache α c) us).offset ∧
    ((∀ u ∈ us, u.length = 1) →
      (applyMany (freshCache α c) us).idx ≤ c) := by
  have hwf := cacheWF_applyMany us (freshCache α c) (cacheWF_fresh c hc) hus
  refine ⟨Nat.zero_le _, hwf.2.1, ?_⟩
  intro hsing
  rw [applyMany_singletons _ us hsing]
  rcases eq_or_ne us.flatten [] with hf | hf
  · rw [hf]
    simp [applyEach, freshCache]
  · exact singles_idx_le c hc us.flatten hf

/-- C4 witness: capacity 2, a two-position and a one-position update. -/
theorem claim4_witness :
    0 ≤ (applyMany (freshCache ℤ 2) [[1, 2], [3]]).idx ∧
    (applyMany (freshCache ℤ 2) [[1, 2], [3]]).idx
      ≤ (applyMany (freshCache ℤ 2) [[1, 2], [3]]).offset ∧
    ((∀ u ∈ ([[1, 2], [3]] : List (List ℤ)), u.length = 1) →
      (applyMany (freshCache ℤ 2) [[1, 2], [3]]).idx ≤ 2) :=
  claim4_invariant 2 (by decide) [[1, 2], [3]] (by decide)

/-! ## Audio frontend (src/voxmlx/audio.py)

The spectral constants: `N_FFT = 400`, `HOP_LENGTH = 160`,
`SAMPLES_PER_TOKEN = HOP_LENGTH * 2 * 4 = 1280`.  Frames are represented
by their raw sample windows: both the batch and the incremental code path
apply the identical per-window computation (Hann window, real DFT, power
spectrum, mel filter bank, log compression) to each hop-aligned window, so
equality or inequality of frames is equality or inequality of windows. -/

def N_FFT : Nat := 400

def HOP_LENGTH : Nat := 160

def SAMPLES_PER_TOKEN : Nat := HOP_LENGTH * 2 * 4

/-- `pad_audio(audio, n_left_pad_tokens, n_right_pad_tokens)`: zero pad on
the left by whole tokens and on the right by the alignment remainder plus
whole tokens. -/
def pad_audio {α : Type} [Zero α] (audio : List α)
    (nLeftPadTokens nRightPadTokens : Nat) : List α :=
  let leftPad := nLeftPadTokens * SAMPLES_PER_TOKEN
  let rightAlign := (SAMPLES_PER_TOKEN - audio.length % SAMPLES_PER_TOKEN)
    % SAMPLES_PER_TOKEN
  let rightPad := rightAlign + nRightPadTokens * SAMPLES_PER_TOKEN
  List.replicate leftPad 0 ++ audio ++ List.replicate rightPad 0

/-- The hop-aligned analysis windows of a prepared sample buffer:
`n_frames = 1 + (len - N_FFT) // HOP_LENGTH` windows of `N_FFT` samples at
starts `0, HOP_LENGTH, 2*HOP_LENGTH, …` (none when fewer than one window
of samples exists, matching the `n_frames <= 0` early return). -/
def framesOf {α : Type} (comb : List α) : List (List α) :=
  if N_FFT ≤ comb.length then
    (List.range ((comb.length - N_FFT) / HOP_LENGTH + 1)).map
      (fun j => (comb.drop (HOP_LENGTH * j)).take N_FFT)
  else []

/-- `log_mel_spectrogram(audio)` at the framing level: pad `N_FFT / 2`
zeros on both sides, frame, and drop the last frame
(`magnitudes = spec[:-1]`). -/
def log_mel_spectrogram {α : Type} [Zero α] (audio : List α) :
    List (List α) :=
  (framesOf (List.replicate (N_FFT / 2) 0 ++ audio
    ++ List.replicate (N_FFT / 2) 0)).dropLast

/-- The combined buffer of `log_mel_spectrogram_step`: the retained tail,
or `N_FFT / 2` zeros of STFT left padding on the first call, followed by
the new chunk. -/
def melCombined {α : Type} [Zero α] (chunk : List α)
    (tail : Option (List α)) : List α :=
  (match tail with
   | some t => t
   | none => List.replicate (N_FFT / 2) 0) ++ chunk

/-- `log_mel_spectrogram_step(audio_chunk, audio_tail)` at the framing
level: frame the combined buffer (no frame drop) and retain
`combined[-(N_FFT - HOP_LENGTH):]` as the new tail (`List.drop` clamps at
zero exactly as the negative numpy index clamps). -/
def log_mel_spectrogram_step {α : Type} [Zero α] (chunk : List α)
    (tail : Option (List α)) : List (List α) × List α :=
  (framesOf (melCombined chunk tail),
   (melCombined chunk tail).drop
     ((melCombined chunk tail).length - (N_FFT - HOP_LENGTH)))

/-- Feed chunks through `log_mel_spectrogram_step`, threading the tail and
concatenating the produced frames. -/
def log_mel_chunks {α : Type} [Zero α] (chunks : List (List α)) :
    List (List α) × Option (List α) :=
  chunks.foldl
    (fun acc ch =>
      ((acc.1 ++ (log_mel_spectrogram_step ch acc.2).1),
        some (log_mel_spectrogram_step ch acc.2).2))
    ([], none)

/-- C10 (confirmed): `pad_audio` with default parameters returns
`1280 * (32 + 17) + n + ((1280 - n % 1280) % 1280)
 = 1280 * (49 + ceil(n / 1280))` samples, a positive multiple of
`SAMPLES_PER_TOKEN = 1280`, with the original samples unchanged between
the zero pads. -/
theorem claim10_pad_audio {α : Type} [Zero α] (audio : List α) :
    (pad_audio audio 32 17).length
      = 1280 * (32 + 17) + audio.length
        + ((1280 - audio.length % 1280) % 1280) ∧
    (pad_audio audio 32 17).length
      = 1280 * (49 + (audio.length + 1279) / 1280) ∧
    1280 ∣ (pad_audio audio 32 17).length ∧
    0 < (pad_audio audio 32 17).length ∧
    ((pad_audio audio 32 17).drop (32 * 1280)).take audio.length = audio := by
  have hlen : (pad_audio audio 32 17).length
      = 32 * 1280 + audio.length
        + (((1280 - audio.length % 1280) % 1280) + 17 * 1280) := by
    simp only [pad_audio, SAMPLES_PER_TOKEN, HOP_LENGTH, List.length_append,
      List.length_replicate]
  refine ⟨by rw [hlen]; omega, by rw [hlen]; omega, ?_, by rw [hlen]; omega,
    ?_⟩
  · refine ⟨49 + (audio.length + 1279) / 1280, ?_⟩
    rw [hlen]
    omega
  · have hd : (pad_audio audio 32 17).drop (32 * 1280)
        = audio ++ List.replicate (((1280 - audio.length % 1280) % 1280)
          + 17 * 1280) (0 : α) := by
      unfold pad_audio
      rw [List.append_assoc]
      refine List.drop_left' ?_
      rw [List.length_replicate]
      norm_num [SAMPLES_PER_TOKEN, HOP_LENGTH]
    rw [hd]
    exact List.take_left' rfl

/-- C7, counterexample to the claim as frozen: a first call with an empty
chunk has a combined buffer of only the 200 left-pad zeros, so the
returned tail has length 200, not `W = 240`. -/
theorem claim7_counterexample :
    ((log_mel_spectrogram_step ([] : List ℤ) none).2).length = 200 ∧
    ((log_mel_spectrogram_step ([] : List ℤ) none).2).length ≠ 240 := by
  constructor <;> decide

/-- C7 (amended): a call whose combined buffer holds fewer than one
window of samples returns zero frames; the returned tail is the suffix of
the combined buffer of length `min (N_FFT - HOP_LENGTH) |combined|` —
exactly `W = 240` samples whenever at least `W` combined samples exist,
shorter on a first call with fewer than 40 chunk samples. -/
theorem claim7_tail {α : Type} [Zero α] (chunk : List α)
    (tail : Option (List α)) :
    ((melCombined chunk tail).length < N_FFT →
      (log_mel_spectrogram_step chunk tail).1 = []) ∧
    ((log_mel_spectrogram_step chunk tail).2).length
      = min (N_FFT - HOP_LENGTH) (melCombined chunk tail).length ∧
    (melCombined chunk tail).take
        ((melCombined chunk tail).length - (N_FFT - HOP_LENGTH))
      ++ (log_mel_spectrogram_step chunk tail).2
      = melCombined chunk tail := by
  refine ⟨?_, ?_, ?_⟩
  · intro hshort
    unfold log_mel_spectrogram_step framesOf
    rw [if_neg (by omega)]
  · unfold log_mel_spectrogram_step
    simp only [List.length_drop]
    omega
  · exact List.take_append_drop _ _

/-- C7 witness: first call with 100 zero samples — fewer than one window,
yet 240 ≤ 300 combined samples, so the tail has full length 240. -/
theorem claim7_witness :
    (melCombined (List.replicate 100 (0 : ℤ)) none).length < N_FFT ∧
    (log_mel_spectrogram_step (List.replicate 100 (0 : ℤ)) none).1 = [] ∧
    ((log_mel_spectrogram_step (List.replicate 100 (0 : ℤ)) none).2).length
      = min (N_FFT - HOP_LENGTH)
        (melCombined (List.replicate 100 (0 : ℤ)) none).length ∧
    (melCombined (List.replicate 100 (0 : ℤ)) none).take
        ((melCombined (List.replicate 100 (0 : ℤ)) none).length
          - (N_FFT - HOP_LENGTH))
      ++ (log_mel_spectrogram_step (List.replicate 100 (0 : ℤ)) none).2
      = melCombined (List.replicate 100 (0 : ℤ)) none :=
  ⟨by decide,
   (claim7_tail (List.replicate 100 (0 : ℤ)) none).1 (by decide),
   (claim7_tail (List.replicate 100 (0 : ℤ)) none).2.1,
   (claim7_tail (List.replicate 100 (0 : ℤ)) none).2.2⟩

/-- C5 (code bug): 400 audio samples (values `1..400`) split into chunks
of 240 and 160 break chunking equivalence.  The batch path produces 2
frames; the incremental path also produces 2, but they disagree at the
second frame: after the first call the leftover past the produced frame is
280 samples while only the last 240 are kept (the 200-sample initial pad
is not congruent to the 160-sample hop), so the second incremental frame
starts 40 samples late — its first sample is the audio value `1` where the
second batch frame still starts inside the zero padding. -/
theorem claim5_chunking_bug :
    (log_mel_chunks [((List.range 400).map (· + 1)).take 240,
        ((List.range 400).map (· + 1)).drop 240]).1.length = 2 ∧
    (log_mel_spectrogram ((List.range 400).map (· + 1))).length = 2 ∧
    (((log_mel_chunks [((List.range 400).map (· + 1)).take 240,
        ((List.range 400).map (· + 1)).drop 240]).1.getD 1 []).getD 0 7)
      = 1 ∧
    (((log_mel_spectrogram ((List.range 400).map (· + 1))).getD 1
        []).getD 0 7) = 0 ∧
    (log_mel_chunks [((List.range 400).map (· + 1)).take 240,
        ((List.range 400).map (· + 1)).drop 240]).1
      ≠ log_mel_spectrogram ((List.range 400).map (· + 1)) := by
  have h3 : (((log_mel_chunks [((List.range 400).map (· + 1)).take 240,
      ((List.range 400).map (· + 1)).drop 240]).1.getD 1 []).getD 0 7)
      = 1 := by
    decide
  have h4 : (((log_mel_spectrogram ((List.range 400).map (· + 1))).getD 1
      []).getD 0 7) = 0 := by
    decide
  refine ⟨by decide, by decide, h3, h4, fun h => ?_⟩
  rw [h] at h3
  exact absurd (h3.symm.trans h4) (by decide)

/-! ## Streaming orchestrator (src/voxmlx/stream.py)

The lookahead invariant is about element counts only, so the incremental
encoder pipeline (`log_mel_spectrogram_step`, `encode_step` with its two
causal convolutions, encoder cache and downsample buffer) is modelled at
the level of the shape arithmetic of those functions: each stage's output
length and carried-tail length as a function of its input length, exactly
mirroring the tensor shapes in `audio.py`, `encoder.py` (`CausalConv1d`
with kernel 3 and strides 1 and 2, `forward_conv_step`) and
`model.py` (`encode_step` downsample grouping by 4).  The transformer
stack preserves the frame count and is dropped.  The decoder
(`decode_steps`) consumes embeddings one a time and may stop early on an
end-of-sequence token, after which `reset_all_state()` restores the fresh
state; the sampled-token stream is abstracted by the cycle's `eosAt`
parameter (the step index at which EOS appears, if any). -/

def N_LEFT_PAD_TOKENS : Nat := 32

/-- Length of `_build_prompt_tokens`' prompt:
`[BOS] + [STREAMING_PAD] * (n_left_pad_tokens + num_delay_tokens)`
with 32 left-pad and 6 delay tokens. -/
def PREFIX_LEN : Nat := 1 + (32 + 6)

/-- Count state of the `stream_transcribe` loop: lengths of
`pending_audio`, `audio_tail`, `conv1_tail`, `conv2_tail`, `ds_buf` and
`audio_embeds`, the counters `n_audio_samples_fed` and `n_total_decoded`,
and the `first_cycle` / `prefilled` flags. -/
structure OrchState where
  pending : Nat
  audioTail : Option Nat
  conv1Tail : Option Nat
  conv2Tail : Option Nat
  dsBuf : Option Nat
  embeds : Nat
  fed : Nat
  decoded : Nat
  firstCycle : Bool
  prefilled : Bool
  deriving Repr, DecidableEq

/-- The initial state of the loop, also restored by `reset_all_state()`. -/
def initOrch : OrchState :=
  { pending := 0, audioTail := none, conv1Tail := none, conv2Tail := none,
    dsBuf := none, embeds := 0, fed := 0, decoded := 0,
    firstCycle := true, prefilled := false }

/-- Output length of a convolution with kernel `k` and stride `s` on
`lin` input positions (`mx.conv1d` shape rule). -/
def convOutLen (lin k s : Nat) : Nat :=
  if k ≤ lin then (lin - k) / s + 1 else 0

/-- Shape behaviour of `log_mel_spectrogram_step`: frames produced and
new tail length from the chunk length and carried tail length (the first
call pads `N_FFT / 2` zeros instead of a tail). -/
def melStepLen (chunk : Nat) (tail : Option Nat) : Nat × Nat :=
  ((if N_FFT ≤ (match tail with | some t => t | none => N_FFT / 2) + chunk
    then ((match tail with | some t => t | none => N_FFT / 2) + chunk
      - N_FFT) / HOP_LENGTH + 1
    else 0),
   min (N_FFT - HOP_LENGTH)
     ((match tail with | some t => t | none => N_FFT / 2) + chunk))

/-- Shape behaviour of one causal convolution stage of
`forward_conv_step`: the input is left-padded by `k - s` zeros on the
first call, or the carried tail of `k - s` frames after; the new tail is
the last `min (k - s) n` input frames. -/
def convStepLen (n : Nat) (tail : Option Nat) (k s : Nat) : Nat × Nat :=
  (convOutLen ((match tail with | some t => t | none => k - s) + n) k s,
   min (k - s) n)

/-- Shape behaviour of one feed through `log_mel_spectrogram_step` and
`encode_step`: mel frames, conv1 (kernel 3, stride 1), conv2 (kernel 3,
stride 2), then grouping by the downsample factor 4 with the leftover kept
in `ds_buf`. -/
def feedChunk (st : OrchState) (chunkLen : Nat) : OrchState :=
  let m := melStepLen chunkLen st.audioTail
  let c1 := convStepLen m.1 st.conv1Tail 3 1
  let c2 := convStepLen c1.1 st.conv2Tail 3 2
  let total := st.dsBuf.getD 0 + c2.1
  let ncomp := total / 4 * 4
  let newDs : Option Nat :=
    if ncomp = 0 then some total
    else if ncomp < total then some (total - ncomp) else none
  { st with audioTail := some m.2, conv1Tail := some c1.2,
            conv2Tail := some c2.2, dsBuf := newDs,
            embeds := st.embeds + ncomp / 4 }

/-- The encode stage of one orchestrator cycle: on the first cycle feed
the 32-token left pad of silence plus all whole tokens of pending audio,
afterwards feed only whole tokens of pending audio; `n_audio_samples_fed`
counts only real (non-pad) samples. -/
def feedStage (st : OrchState) : OrchState :=
  if st.firstCycle = true ∧ SAMPLES_PER_TOKEN ≤ st.pending then
    feedChunk
      { st with pending := st.pending
                  - st.pending / SAMPLES_PER_TOKEN * SAMPLES_PER_TOKEN,
                fed := st.fed
                  + st.pending / SAMPLES_PER_TOKEN * SAMPLES_PER_TOKEN,
                firstCycle := false }
      (N_LEFT_PAD_TOKENS * SAMPLES_PER_TOKEN
        + st.pending / SAMPLES_PER_TOKEN * SAMPLES_PER_TOKEN)
  else if st.firstCycle = false ∧ SAMPLES_PER_TOKEN ≤ st.pending then
    feedChunk
      { st with pending := st.pending
                  - st.pending / SAMPLES_PER_TOKEN * SAMPLES_PER_TOKEN,
                fed := st.fed
                  + st.pending / SAMPLES_PER_TOKEN * SAMPLES_PER_TOKEN }
      (st.pending / SAMPLES_PER_TOKEN * SAMPLES_PER_TOKEN)
  else st

/-- `decode_steps(embeds, n)` at the count level: consume `n` positions,
or stop at the end-of-sequence token after `j` positions (`eosAt`), in
which case `reset_all_state()` restores the fresh state. -/
def orchDecode (st : OrchState) (nd : Nat) (eosAt : Option Nat) :
    OrchState :=
  match eosAt with
  | some j =>
      if j < nd then initOrch
      else { st with decoded := st.decoded + nd,
                     embeds := st.embeds - nd }
  | none => { st with decoded := st.decoded + nd,
                      embeds := st.embeds - nd }

/-- The decode stage of one orchestrator cycle: skip when no embeddings
are queued or nothing is safely decodable
(`n_decodable = min(|embeds|, safe_total - n_total_decoded) ≤ 0`,
computed in ℤ exactly as Python's ints); before prefill, wait until
`prefix_len` positions are available, then consume them, set
`n_total_decoded = prefix_len`, recompute decodability and decode. -/
def decodeStage (st : OrchState) (eosAt : Option Nat) : OrchState :=
  if st.embeds = 0 then st
  else
    if (min (st.embeds : Int)
        (((N_LEFT_PAD_TOKENS + st.fed / SAMPLES_PER_TOKEN : Nat) : Int)
          - (st.decoded : Int))) ≤ 0 then st
    else if st.prefilled = false then
      if st.decoded + st.embeds < PREFIX_LEN then st
      else
        if (min ((st.embeds - PREFIX_LEN : Nat) : Int)
            (((N_LEFT_PAD_TOKENS + st.fed / SAMPLES_PER_TOKEN : Nat) : Int)
              - (PREFIX_LEN : Int))) ≤ 0 then
          { st with embeds := st.embeds - PREFIX_LEN,
                    decoded := PREFIX_LEN, prefilled := true }
        else
          orchDecode
            { st with embeds := st.embeds - PREFIX_LEN,
                      decoded := PREFIX_LEN, prefilled := true }
            (min ((st.embeds - PREFIX_LEN : Nat) : Int)
              (((N_LEFT_PAD_TOKENS + st.fed / SAMPLES_PER_TOKEN : Nat) : Int)
                - (PREFIX_LEN : Int))).toNat eosAt
    else
      orchDecode st
        (min ((st.embeds : Nat) : Int)
          (((N_LEFT_PAD_TOKENS + st.fed / SAMPLES_PER_TOKEN : Nat) : Int)
            - (st.decoded : Int))).toNat eosAt

/-- One cycle of the `stream_transcribe` while-loop: drain `arrive` newly
captured samples into the pending buffer; on the first cycle wait until a
whole token of audio is pending; then encode and decode. -/
def cycle (st : OrchState) (arrive : Nat) (eosAt : Option Nat) :
    OrchState :=
  if st.firstCycle = true ∧ st.pending + arrive < SAMPLES_PER_TOKEN then
    { st with pending := st.pending + arrive }
  else decodeStage (feedStage { st with pending := st.pending + arrive })
    eosAt

/-- Run the orchestrator loop over a trace of cycles (per cycle: number
of arriving samples, and the step index at which the sampled token stream
hits EOS, if any). -/
def runOrch (tr : List (Nat × Option Nat)) : OrchState :=
  tr.foldl (fun st ev => cycle st ev.1 ev.2) initOrch

/-- Shape of the first feed: the 32-token silence pad plus `k ≥ 1` whole
tokens of audio produce exactly `32 + k - 1` embeddings and leave the
steady carried-state lengths (240-sample mel tail, 2-frame conv1 tail,
1-frame conv2 tail, 3-frame downsample buffer). -/
theorem feedChunk_first (st : OrchState) (k : Nat) (hk : 1 ≤ k)
    (hat : st.audioTail = none) (h1 : st.conv1Tail = none)
    (h2 : st.conv2Tail = none) (hd : st.dsBuf = none) :
    feedChunk st
        (N_LEFT_PAD_TOKENS * SAMPLES_PER_TOKEN + k * SAMPLES_PER_TOKEN)
      = { st with audioTail := some 240, conv1Tail := some 2,
                  conv2Tail := some 1, dsBuf := some 3,
                  embeds := st.embeds + (N_LEFT_PAD_TOKENS + k - 1) } := by
  obtain ⟨p, t0, t1, t2, ds, e, f, d, fc, pf⟩ := st
  simp only at hat h1 h2 hd
  subst hat
  subst h1
  subst h2
  subst hd
  simp only [feedChunk, melStepLen, convStepLen, convOutLen, N_FFT,
    HOP_LENGTH, SAMPLES_PER_TOKEN, N_LEFT_PAD_TOKENS, Option.getD_none]
  congr 1 <;>
    first
      | rfl
      | (simp only [Option.some.injEq]; omega)
      | (simp only [Option.some.injEq]
         split_ifs <;> omega)
      | (split_ifs <;>
          first
            | (simp only [Option.some.injEq]; omega)
            | (exfalso; omega)
            | omega)

/-- Shape of a steady feed: from the steady carried-state lengths,
`k ≥ 1` whole tokens of audio produce exactly `k` embeddings and restore
the same carried-state lengths. -/
theorem feedChunk_steady (st : OrchState) (k : Nat) (hk : 1 ≤ k)
    (hat : st.audioTail = some 240) (h1 : st.conv1Tail = some 2)
    (h2 : st.conv2Tail = some 1) (hd : st.dsBuf = some 3) :
    feedChunk st (k * SAMPLES_PER_TOKEN)
      = { st with audioTail := some 240, conv1Tail := some 2,
                  conv2Tail := some 1, dsBuf := some 3,
                  embeds := st.embeds + k } := by
  obtain ⟨p, t0, t1, t2, ds, e, f, d, fc, pf⟩ := st
  simp only at hat h1 h2 hd
  subst hat
  subst h1
  subst h2
  subst hd
  simp only [feedChunk, melStepLen, convStepLen, convOutLen, N_FFT,
    HOP_LENGTH, SAMPLES_PER_TOKEN, N_LEFT_PAD_TOKENS, Option.getD_some]
  congr 1 <;>
    first
      | rfl
      | (simp only [Option.some.injEq]; omega)
      | (simp only [Option.some.injEq]
         split_ifs <;> omega)
      | (split_ifs <;>
          first
            | (simp only [Option.some.injEq]; omega)
            | (exfalso; omega)
            | omega)

/-- Loop invariant of `stream_transcribe`: on the first cycle nothing has
been fed or decoded; afterwards the carried pipeline state has its steady
lengths, the fed sample count is a positive whole number of tokens, and
the queued embeddings plus decoded positions total exactly
`N_LEFT_PAD_TOKENS + fed / SAMPLES_PER_TOKEN - 1` (the pipeline is always
one position behind the fed audio); before prefill nothing is decoded. -/
def OrchInv (st : OrchState) : Prop :=
  (st.firstCycle = true →
    st.fed = 0 ∧ st.decoded = 0 ∧ st.embeds = 0 ∧ st.prefilled = false ∧
    st.audioTail = none ∧ st.conv1Tail = none ∧ st.conv2Tail = none ∧
    st.dsBuf = none) ∧
  (st.firstCycle = false →
    st.audioTail = some 240 ∧ st.conv1Tail = some 2 ∧
    st.conv2Tail = some 1 ∧ st.dsBuf = some 3 ∧
    SAMPLES_PER_TOKEN ∣ st.fed ∧ SAMPLES_PER_TOKEN ≤ st.fed ∧
    st.embeds + st.decoded + 1
      = N_LEFT_PAD_TOKENS + st.fed / SAMPLES_PER_TOKEN) ∧
  (st.prefilled = false → st.decoded = 0)

theorem orchInv_init : OrchInv initOrch := by
  refine ⟨fun _ => ⟨rfl, rfl, rfl, rfl, rfl, rfl, rfl, rfl⟩,
    fun h => by simp [initOrch] at h, fun _ => rfl⟩

theorem orchInv_pending (st : OrchState) (p : Nat) (h : OrchInv st) :
    OrchInv { st with pending := p } := by
  obtain ⟨p0, t0, t1, t2, ds, e, f, d, fc, pf⟩ := st
  exact h

/-- The encode stage preserves the loop invariant. -/
theorem feedStage_inv (st : OrchState) (h : OrchInv st) :
    OrchInv (feedStage st) := by
  obtain ⟨p, t0, t1, t2, ds, e, f, d, fc, pf⟩ := st
  obtain ⟨hF, hS, hP⟩ := h
  simp only at hF hS hP
  have hSPT : 0 < SAMPLES_PER_TOKEN := by decide
  unfold feedStage
  by_cases hc1 : fc = true ∧ SAMPLES_PER_TOKEN ≤ p
  · rw [if_pos (by simpa using hc1)]
    obtain ⟨hf0, hd0, he0, hp0, ht0, ht1, ht2, ht3⟩ := hF hc1.1
    subst hf0
    subst hd0
    subst he0
    subst hp0
    subst ht0
    subst ht1
    subst ht2
    subst ht3
    have hk : 1 ≤ p / SAMPLES_PER_TOKEN :=
      (Nat.one_le_div_iff hSPT).mpr hc1.2
    rw [feedChunk_first _ (p / SAMPLES_PER_TOKEN) hk rfl rfl rfl rfl]
    refine ⟨fun hcon => by simp at hcon, fun _ => ?_, fun _ => rfl⟩
    refine ⟨rfl, rfl, rfl, rfl, ⟨p / SAMPLES_PER_TOKEN, by ring⟩, ?_, ?_⟩
    · show SAMPLES_PER_TOKEN ≤ 0 + p / SAMPLES_PER_TOKEN * SAMPLES_PER_TOKEN
      calc SAMPLES_PER_TOKEN = 1 * SAMPLES_PER_TOKEN := by ring
        _ ≤ p / SAMPLES_PER_TOKEN * SAMPLES_PER_TOKEN :=
            Nat.mul_le_mul_right _ hk
        _ = 0 + p / SAMPLES_PER_TOKEN * SAMPLES_PER_TOKEN := by ring
    · show 0 + (N_LEFT_PAD_TOKENS + p / SAMPLES_PER_TOKEN - 1) + 0 + 1
        = N_LEFT_PAD_TOKENS
          + (0 + p / SAMPLES_PER_TOKEN * SAMPLES_PER_TOKEN)
            / SAMPLES_PER_TOKEN
      rw [Nat.zero_add, Nat.zero_add, Nat.mul_div_cancel _ hSPT]
      simp only [N_LEFT_PAD_TOKENS]
      omega
  · rw [if_neg (by simpa using hc1)]
    by_cases hc2 : fc = false ∧ SAMPLES_PER_TOKEN ≤ p
    · rw [if_pos (by simpa using hc2)]
      obtain ⟨ht0, ht1, ht2, ht3, hdvd, hfge, heq⟩ := hS hc2.1
      subst ht0
      subst ht1
      subst ht2
      subst ht3
      obtain ⟨m, hm⟩ := hdvd
      subst hm
      have hk : 1 ≤ p / SAMPLES_PER_TOKEN :=
        (Nat.one_le_div_iff hSPT).mpr hc2.2
      rw [feedChunk_steady _ (p / SAMPLES_PER_TOKEN) hk rfl rfl rfl rfl]
      refine ⟨fun hcon => by rw [hc2.1] at hcon; simp at hcon,
        fun _ => ?_, fun hpf => hP hpf⟩
      have hdiv : (SAMPLES_PER_TOKEN * m
            + p / SAMPLES_PER_TOKEN * SAMPLES_PER_TOKEN)
            / SAMPLES_PER_TOKEN = m + p / SAMPLES_PER_TOKEN := by
        rw [show SAMPLES_PER_TOKEN * m
            + p / SAMPLES_PER_TOKEN * SAMPLES_PER_TOKEN
          = SAMPLES_PER_TOKEN * (m + p / SAMPLES_PER_TOKEN) from by ring]
        exact Nat.mul_div_cancel_left _ hSPT
      rw [Nat.mul_div_cancel_left _ hSPT] at heq
      refine ⟨rfl, rfl, rfl, rfl,
        ⟨m + p / SAMPLES_PER_TOKEN, by ring⟩, ?_, ?_⟩
      · show SAMPLES_PER_TOKEN ≤ SAMPLES_PER_TOKEN * m
          + p / SAMPLES_PER_TOKEN * SAMPLES_PER_TOKEN
        calc SAMPLES_PER_TOKEN = 1 * SAMPLES_PER_TOKEN := by ring
          _ ≤ p / SAMPLES_PER_TOKEN * SAMPLES_PER_TOKEN :=
              Nat.mul_le_mul_right _ hk
          _ ≤ SAMPLES_PER_TOKEN * m
              + p / SAMPLES_PER_TOKEN * SAMPLES_PER_TOKEN := by omega
      · show e + p / SAMPLES_PER_TOKEN + d + 1
          = N_LEFT_PAD_TOKENS + (SAMPLES_PER_TOKEN * m
            + p / SAMPLES_PER_TOKEN * SAMPLES_PER_TOKEN)
              / SAMPLES_PER_TOKEN
        rw [hdiv]
        omega
    · rw [if_neg (by simpa using hc2)]
      exact ⟨hF, hS, hP⟩

/-- Consuming at most the queued embeddings preserves the invariant
(after prefill); an end-of-sequence hit resets to the fresh state. -/
theorem orchDecode_inv (st : OrchState) (nd : Nat) (eosAt : Option Nat)
    (h : OrchInv st) (hfc : st.firstCycle = false)
    (hpre : st.prefilled = true) (hnd : nd ≤ st.embeds) :
    OrchInv (orchDecode st nd eosAt) := by
  obtain ⟨p, t0, t1, t2, ds, e, f, d, fc, pf⟩ := st
  obtain ⟨hF, hS, hP⟩ := h
  simp only at hF hS hP hfc hpre hnd
  subst hfc
  subst hpre
  obtain ⟨ht0, ht1, ht2, ht3, hdvd, hfge, heq⟩ := hS rfl
  cases eosAt with
  | none =>
      simp only [orchDecode]
      exact ⟨fun hcon => by simp at hcon,
        fun _ => ⟨ht0, ht1, ht2, ht3, hdvd, hfge, by
          simp only
          omega⟩,
        fun hcon => by simp at hcon⟩
  | some j =>
      simp only [orchDecode]
      split
      · exact orchInv_init
      · exact ⟨fun hcon => by simp at hcon,
          fun _ => ⟨ht0, ht1, ht2, ht3, hdvd, hfge, by
            simp only
            omega⟩,
          fun hcon => by simp at hcon⟩

/-- Consuming the prefill prefix preserves the invariant. -/
theorem orchPrefill_inv (st : OrchState) (h : OrchInv st)
    (hfc : st.firstCycle = false) (hd0 : st.decoded = 0)
    (hwait : PREFIX_LEN ≤ st.decoded + st.embeds) :
    OrchInv { st with embeds := st.embeds - PREFIX_LEN,
                      decoded := PREFIX_LEN, prefilled := true } := by
  obtain ⟨p, t0, t1, t2, ds, e, f, d, fc, pf⟩ := st
  obtain ⟨hF, hS, hP⟩ := h
  simp only at hF hS hP hfc hd0 hwait ⊢
  subst hfc
  subst hd0
  obtain ⟨ht0, ht1, ht2, ht3, hdvd, hfge, heq⟩ := hS rfl
  exact ⟨fun hcon => by simp at hcon,
    fun _ => ⟨ht0, ht1, ht2, ht3, hdvd, hfge, by
      simp only
      omega⟩,
    fun hcon => by simp at hcon⟩

/-- The decode stage preserves the loop invariant. -/
theorem decodeStage_inv (st : OrchState) (eosAt : Option Nat)
    (h : OrchInv st) : OrchInv (decodeStage st eosAt) := by
  unfold decodeStage
  by_cases h0 : st.embeds = 0
  · rw [if_pos h0]
    exact h
  · rw [if_neg h0]
    have hfc : st.firstCycle = false := by
      rcases Bool.eq_false_or_eq_true st.firstCycle with hb | hb
      · exact absurd (h.1 hb).2.2.1 h0
      · exact hb
    by_cases hnd : (min (st.embeds : Int)
        (((N_LEFT_PAD_TOKENS + st.fed / SAMPLES_PER_TOKEN : Nat) : Int)
          - (st.decoded : Int))) ≤ 0
    · rw [if_pos hnd]
      exact h
    · rw [if_neg hnd]
      by_cases hpf : st.prefilled = false
      · rw [if_pos hpf]
        by_cases hwait : st.decoded + st.embeds < PREFIX_LEN
        · rw [if_pos hwait]
          exact h
        · rw [if_neg hwait]
          have hd0 : st.decoded = 0 := h.2.2 hpf
          have hinv2 := orchPrefill_inv st h hfc hd0 (by omega)
          by_cases hnd2 : (min ((st.embeds - PREFIX_LEN : Nat) : Int)
              (((N_LEFT_PAD_TOKENS + st.fed / SAMPLES_PER_TOKEN : Nat) : Int)
                - (PREFIX_LEN : Int))) ≤ 0
          · rw [if_pos hnd2]
            exact hinv2
          · rw [if_neg hnd2]
            refine orchDecode_inv _ _ eosAt hinv2 hfc rfl ?_
            simp only
            omega
      · rw [if_neg hpf]
        have hpt : st.prefilled = true := by
          simpa using hpf
        refine orchDecode_inv _ _ eosAt h hfc hpt ?_
        omega

/-- One orchestrator cycle preserves the loop invariant. -/
theorem cycle_inv (st : OrchState) (arrive : Nat) (eosAt : Option Nat)
    (h : OrchInv st) : OrchInv (cycle st arrive eosAt) := by
  unfold cycle
  by_cases hg : st.firstCycle = true ∧ st.pending + arrive < SAMPLES_PER_TOKEN
  · rw [if_pos hg]
    exact orchInv_pending st _ h
  · rw [if_neg hg]
    exact decodeStage_inv _ eosAt (feedStage_inv _ (orchInv_pending st _ h))

/-- The invariant holds at every cycle of the loop. -/
theorem runOrch_inv (tr : List (Nat × Option Nat)) : OrchInv (runOrch tr) := by
  suffices hgen : ∀ s, OrchInv s →
      OrchInv (tr.foldl (fun st ev => cycle st ev.1 ev.2) s) by
    exact hgen initOrch orchInv_init
  induction tr with
  | nil => exact fun s h => h
  | cons ev rest ih =>
      exact fun s h => ih _ (cycle_inv s ev.1 ev.2 h)

/-- C6 (confirmed): at every cycle of the streaming orchestrator loop,
the total number of decoded positions never exceeds the left-pad token
count plus the floor of real audio samples fed divided by the per-token
sample count — including across the prefill transition and end-of-sequence
resets. -/
theorem claim6_lookahead (tr : List (Nat × Option Nat)) :
    (runOrch tr).decoded
      ≤ N_LEFT_PAD_TOKENS + (runOrch tr).fed / SAMPLES_PER_TOKEN := by
  obtain ⟨hF, hS, hP⟩ := runOrch_inv tr
  by_cases hb : (runOrch tr).firstCycle = true
  · obtain ⟨hf0, hd0, _⟩ := hF hb
    rw [hd0]
    exact Nat.zero_le _
  · have hb2 : (runOrch tr).firstCycle = false := by simpa using hb
    obtain ⟨ht0, ht1, ht2, ht3, hdvd, hfge, heq⟩ := hS hb2
    omega

/-! ## Autoregressive decode loops (src/voxmlx/generate.py and the
`decode_steps` closure in src/voxmlx/stream.py)

The model plus sampler is abstracted as the stream `ys : Nat → Nat` of
sampled token ids: `ys 0` is the token sampled from the prefill logits and
`ys (i+1)` the token sampled while consuming position `i`
(`y` / `next_y` double buffering).  Only the loop's control flow around
the end-of-sequence token is modelled. -/

/-- The `for pos in range(prefix_len, N_audio)` loop body of `generate`:
at each iteration the current token is examined; on EOS the loop breaks
without appending, otherwise the token is appended. -/
def generateLoopTokens (ys : Nat → Nat) (eos : Nat) :
    Nat → Nat → List Nat
  | 0, _ => []
  | fuel + 1, i =>
      if ys i = eos then []
      else ys i :: generateLoopTokens ys eos fuel (i + 1)

/-- `generate`'s returned `output_tokens`, including the final
`if output_tokens and output_tokens[-1] == eos_token_id` trim. -/
def generateTokens (ys : Nat → Nat) (eos prefixLen nAudio : Nat) :
    List Nat :=
  let out := generateLoopTokens ys eos (nAudio - prefixLen) 0
  if out ≠ [] ∧ out.getLast? = some eos then out.dropLast else out

/-- The `for i in range(n_to_decode)` loop of `decode_steps`: on EOS it
returns `(i, True)` (printing nothing for that token); otherwise it emits
the current token's text and continues; after the full range it returns
`(n_to_decode, False)`.  The result is
`(consumed, hitEos, emitted token ids)`. -/
def decodeStepsAux (ys : Nat → Nat) (eos : Nat) :
    Nat → Nat → Nat × Bool × List Nat
  | 0, i => (i, false, [])
  | fuel + 1, i =>
      if ys i = eos then (i, true, [])
      else
        ((decodeStepsAux ys eos fuel (i + 1)).1,
         (decodeStepsAux ys eos fuel (i + 1)).2.1,
         ys i :: (decodeStepsAux ys eos fuel (i + 1)).2.2)

def decodeSteps (ys : Nat → Nat) (eos n : Nat) : Nat × Bool × List Nat :=
  decodeStepsAux ys eos n 0

theorem generateLoopTokens_not_mem (ys : Nat → Nat) (eos : Nat) :
    ∀ fuel i, eos ∉ generateLoopTokens ys eos fuel i := by
  intro fuel
  induction fuel with
  | zero => intro i; simp [generateLoopTokens]
  | succ f ih =>
      intro i
      rw [generateLoopTokens]
      split
      · simp
      · simp only [List.mem_cons, not_or]
        exact ⟨fun hcon => by simp_all, ih (i + 1)⟩

theorem generateLoopTokens_len (ys : Nat → Nat) (eos : Nat) :
    ∀ fuel i j, j < fuel → ys (i + j) = eos →
      (∀ k, k < j → ys (i + k) ≠ eos) →
      (generateLoopTokens ys eos fuel i).length = j := by
  intro fuel
  induction fuel with
  | zero => intro i j hj; omega
  | succ f ih =>
      intro i j hj hje hmin
      cases j with
      | zero =>
          rw [generateLoopTokens]
          rw [if_pos (by simpa using hje)]
          rfl
      | succ j2 =>
          have h0 : ¬ ys i = eos := by
            have := hmin 0 (by omega)
            simpa using this
          rw [generateLoopTokens, if_neg h0]
          have := ih (i + 1) j2 (by omega)
            (by rw [show i + 1 + j2 = i + (j2 + 1) from by omega]; exact hje)
            (fun k hk => by
              rw [show i + 1 + k = i + (k + 1) from by omega]
              exact hmin (k + 1) (by omega))
          simp [this]

theorem decodeStepsAux_spec (ys : Nat → Nat) (eos : Nat) :
    ∀ fuel i, eos ∉ (decodeStepsAux ys eos fuel i).2.2 ∧
      ((decodeStepsAux ys eos fuel i).2.1 = true →
        ys (decodeStepsAux ys eos fuel i).1 = eos ∧
        (decodeStepsAux ys eos fuel i).1 < i + fuel ∧
        i ≤ (decodeStepsAux ys eos fuel i).1) ∧
      ((decodeStepsAux ys eos fuel i).2.1 = false →
        (decodeStepsAux ys eos fuel i).1 = i + fuel) := by
  intro fuel
  induction fuel with
  | zero =>
      intro i
      refine ⟨by simp [decodeStepsAux], by simp [decodeStepsAux],
        by simp [decodeStepsAux]⟩
  | succ f ih =>
      intro i
      rw [decodeStepsAux]
      split
      · refine ⟨by simp, fun _ => ⟨by assumption, by omega, le_rfl⟩,
          by simp⟩
      · obtain ⟨ih1, ih2, ih3⟩ := ih (i + 1)
        refine ⟨?_, fun hb => ?_, fun hb => ?_⟩
        · simp only [List.mem_cons, not_or]
          exact ⟨fun hcon => by simp_all, ih1⟩
        · obtain ⟨ha, hb2, hc⟩ := ih2 hb
          exact ⟨ha, by omega, by omega⟩
        · have := ih3 hb
          omega

/-- C8 (confirmed): the batch `generate` loop and the streaming
`decode_steps` loop both stop at the first sampled end-of-sequence token;
the EOS id is never in `generate`'s returned token list and is never among
the tokens `decode_steps` emits as text. -/
theorem claim8_eos (ys : Nat → Nat) (eos prefixLen nAudio n : Nat) :
    eos ∉ generateTokens ys eos prefixLen nAudio ∧
    eos ∉ (decodeSteps ys eos n).2.2 ∧
    ((decodeSteps ys eos n).2.1 = true →
      ys (decodeSteps ys eos n).1 = eos ∧ (decodeSteps ys eos n).1 < n) ∧
    ((decodeSteps ys eos n).2.1 = false → (decodeSteps ys eos n).1 = n) ∧
    (∀ j, j < nAudio - prefixLen → ys j = eos →
      (∀ i, i < j → ys i ≠ eos) →
      (generateTokens ys eos prefixLen nAudio).length = j) := by
  have hnm : ∀ fuel i, eos ∉ generateLoopTokens ys eos fuel i :=
    generateLoopTokens_not_mem ys eos
  have hgen : generateTokens ys eos prefixLen nAudio
      = generateLoopTokens ys eos (nAudio - prefixLen) 0 := by
    have hcond : ¬ (generateLoopTokens ys eos (nAudio - prefixLen) 0 ≠ [] ∧
        (generateLoopTokens ys eos (nAudio - prefixLen) 0).getLast?
          = some eos) := by
      rintro ⟨hne, hlast⟩
      have hin : eos ∈ (generateLoopTokens ys eos (nAudio - prefixLen)
          0).getLast? := by
        rw [Option.mem_def, hlast]
      obtain ⟨hne2, heq⟩ := List.mem_getLast?_eq_getLast hin
      have hmem : eos ∈ generateLoopTokens ys eos (nAudio - prefixLen) 0 := by
        nth_rewrite 2 [heq]
        exact List.getLast_mem hne2
      exact hnm (nAudio - prefixLen) 0 hmem
    unfold generateTokens
    simp only [hcond, if_false]
  obtain ⟨hd1, hd2, hd3⟩ := decodeStepsAux_spec ys eos n 0
  refine ⟨?_, hd1, fun hb => ?_, fun hb => by simpa using hd3 hb, ?_⟩
  · rw [hgen]
    exact hnm _ 0
  · obtain ⟨ha, hb2, _⟩ := hd2 hb
    exact ⟨ha, by simpa using hb2⟩
  · intro j hj hje hmin
    rw [hgen]
    exact generateLoopTokens_len ys eos (nAudio - prefixLen) 0 j hj
      (by simpa using hje) (fun k hk => by simpa using hmin k hk)

/-- C8 witness: a concrete sampled stream hitting EOS (id 9) at step 2. -/
theorem claim8_witness :
    (9 : Nat) ∉ generateTokens (fun i => if i = 2 then 9 else i) 9 1 6 ∧
    (9 : Nat) ∉ (decodeSteps (fun i => if i = 2 then 9 else i) 9 5).2.2 ∧
    (generateTokens (fun i => if i = 2 then 9 else i) 9 1 6).length = 2 :=
  ⟨(claim8_eos (fun i => if i = 2 then 9 else i) 9 1 6 5).1,
   (claim8_eos (fun i => if i = 2 then 9 else i) 9 1 6 5).2.1,
   (claim8_eos (fun i => if i = 2 then 9 else i) 9 1 6 5).2.2.2.2 2
     (by decide) (by decide) (by decide)⟩

/-! ## Worker packet framing (src/stt_port_worker.py, src/tts_port_worker.py)

`recv_packet` reads a 4-byte big-endian length prefix from stdin, then the
declared number of payload bytes.  A short or empty header, or a payload read
returning fewer bytes than declared, yields `None`; a declared length of zero
yields the empty payload `b""`.  `main` loops calling `recv_packet` and breaks
exactly when it returns `None`.  We model the byte channel as a finite list of
bytes (the bytes available before the peer closes); a blocking `read(n)`
returns up to `n` bytes, i.e. `take n` / `drop n`.
-/

/-- `sys.stdin.buffer.read n` on a channel holding `s`: the bytes obtained and
the rest of the channel. -/
def readBytes (n : Nat) (s : List Nat) : List Nat × List Nat :=
  (s.take n, s.drop n)

/-- Big-endian unsigned integer of a byte list (`struct.unpack(">I", header)`). -/
def beU32 (b : List Nat) : Nat :=
  b.foldl (fun acc x => acc * 256 + x) 0

/-- `recv_packet` from src/stt_port_worker.py lines 27-37 (src/tts_port_worker.py
lines 12-22 is byte-identical): returns the decoded payload (or `none`) and the
remaining channel contents. -/
def recv_packet (s : List Nat) : Option (List Nat) × List Nat :=
  let hs := readBytes 4 s
  if hs.1.length < 4 then (none, hs.2)
  else
    let length := beU32 hs.1
    if length = 0 then (some [], hs.2)
    else
      let ps := readBytes length hs.2
      if ps.1.length < length then (none, ps.2)
      else (some ps.1, ps.2)

/-- The `main` read loop (src/stt_port_worker.py lines 149-158): keep calling
`recv_packet`, breaking when it returns `None`; collect the payloads handled
(each is then parsed as JSON, an unparseable one only emits an error and
continues).  Fuel bounds the number of iterations modelled. -/
def workerReads : Nat → List Nat → List (List Nat)
  | 0, _ => []
  | fuel + 1, s =>
      match recv_packet s with
      | (none, _) => []
      | (some p, s2) => p :: workerReads fuel s2

theorem recv_packet_zero (rest : List Nat) :
    recv_packet ((0 : Nat) :: 0 :: 0 :: 0 :: rest) = (some [], rest) := rfl

theorem recv_packet_short (short : List Nat) (hshort : short.length < 4) :
    recv_packet short = (none, []) := by
  have ht : short.take 4 = short := List.take_of_length_le (by omega)
  have hd : short.drop 4 = [] := List.drop_eq_nil_of_le (by omega)
  simp only [recv_packet, readBytes, ht, hd, if_pos hshort]

theorem recv_packet_truncated (hdr rest : List Nat) (hlen : hdr.length = 4)
    (hpos : 0 < beU32 hdr) (htrunc : rest.length < beU32 hdr) :
    recv_packet (hdr ++ rest) = (none, []) := by
  have ht : (hdr ++ rest).take 4 = hdr := List.take_left' hlen
  have hd : (hdr ++ rest).drop 4 = rest := List.drop_left' hlen
  have htp : rest.take (beU32 hdr) = rest :=
    List.take_of_length_le (by omega)
  have hdp : rest.drop (beU32 hdr) = [] :=
    List.drop_eq_nil_of_le (by omega)
  simp only [recv_packet, readBytes, ht, hd]
  rw [if_neg (by omega), if_neg (by omega)]
  simp only [htp, hdp]
  rw [if_pos (by omega)]

/-- C9: a frame whose 4-byte big-endian prefix declares length zero decodes to
the empty payload and the worker loop continues on the remaining bytes; a
header shorter than 4 bytes, or a payload carrying fewer bytes than the prefix
declares, decodes to `none` and the worker loop ends there; and the two
outcomes (`some b""` versus `none`) are distinct. -/
theorem claim9_framing (rest short hdr : List Nat) (fuel : Nat)
    (hshort : short.length < 4) (hlen : hdr.length = 4)
    (hpos : 0 < beU32 hdr) (htrunc : rest.length < beU32 hdr) :
    (recv_packet ((0 : Nat) :: 0 :: 0 :: 0 :: rest)).1 = some [] ∧
    workerReads (fuel + 1) ((0 : Nat) :: 0 :: 0 :: 0 :: rest)
      = [] :: workerReads fuel rest ∧
    (recv_packet short).1 = none ∧
    workerReads (fuel + 1) short = [] ∧
    (recv_packet (hdr ++ rest)).1 = none ∧
    workerReads (fuel + 1) (hdr ++ rest) = [] ∧
    (some ([] : List Nat)) ≠ (none : Option (List Nat)) := by
  refine ⟨by rw [recv_packet_zero], ?_, by rw [recv_packet_short short hshort],
    ?_, by rw [recv_packet_truncated hdr rest hlen hpos htrunc], ?_,
    by simp⟩
  · show (match recv_packet ((0 : Nat) :: 0 :: 0 :: 0 :: rest) with
      | (none, _) => []
      | (some p, s2) => p :: workerReads fuel s2)
      = [] :: workerReads fuel rest
    rw [recv_packet_zero]
  · show (match recv_packet short with
      | (none, _) => []
      | (some p, s2) => p :: workerReads fuel s2) = []
    rw [recv_packet_short short hshort]
  · show (match recv_packet (hdr ++ rest) with
      | (none, _) => []
      | (some p, s2) => p :: workerReads fuel s2) = []
    rw [recv_packet_truncated hdr rest hlen hpos htrunc]

/-- C9 witness: channel `[0,0,0,0,7]` (zero frame then garbage byte 7 as the
rest), short channel `[1,2]`, truncated frame `[0,0,0,5] ++ [7]` declaring 5
payload bytes with only 1 available. -/
theorem claim9_witness :
    (recv_packet [0, 0, 0, 0, 7]).1 = some [] ∧
    workerReads 2 [0, 0, 0, 0, 7] = [[]] ∧
    (recv_packet [1, 2]).1 = none ∧
    workerReads 2 [1, 2] = [] ∧
    (recv_packet [0, 0, 0, 5, 7]).1 = none ∧
    workerReads 2 [0, 0, 0, 5, 7] = [] ∧
    (some ([] : List Nat)) ≠ (none : Option (List Nat)) := by
  have h := claim9_framing [7] [1, 2] [0, 0, 0, 5] 1
    (by decide) (by decide) (by decide) (by decide)
  obtain ⟨h1, h2, h3, h4, h5, h6, h7⟩ := h
  exact ⟨h1, by rw [h2]; rfl, h3, h4, h5, h6, h7⟩


end Voxmlx
